import Mathlib

/-!
# UDP payload templates (`src/templ-payloads.c`)

A shallow embedding of the payload registry, the partial checksum, and the
C-string escape decoder of `templ-payloads.c`, followed by theorems about them.

Conventions of the embedding.

* A byte is a `Nat` (below 256 wherever the C type is `unsigned char`).
* A C buffer passed as pointer plus length (`const unsigned char *buf,
  size_t length`) is a memory function `Nat → Nat` (the byte at each index
  from the pointer) together with the length. Reads past `length` are
  therefore reads of that function, as they are reads of memory in C.
* `struct NmapPayloads` is represented by the entries `list[0 .. count)` of
  its array, so `count` is the length of the Lean list. Neither `memmove` nor
  `memcpy` in the file reads a slot at or beyond `count`, and the capacity
  `max` (lines 374-383) only decides when the array is reallocated.
* A loop that C can fail to leave is run on fuel and returns `none` when the
  fuel is used up. A function also returns `none` when it does a load that
  faults (the load of `partial_checksum` for the empty buffer).
-/

namespace TemplPayloads

/-! ## Data model -/

/-- The record `struct Payload` (lines 23-29): its four `unsigned` fields and
the `length` bytes copied behind them. -/
structure Payload where
  port : Nat
  source_port : Nat
  length : Nat
  xsum : Nat
  buf : List Nat
  deriving DecidableEq, Repr

/-- The table entry `struct Payload2` (lines 30-36); `buf` holds the bytes of
the string literal, which C follows with a NUL byte. -/
structure Payload2 where
  port : Nat
  source_port : Nat
  length : Nat
  xsum : Nat
  buf : List Nat
  deriving DecidableEq, Repr

/-- The registry `struct NmapPayloads` (lines 38-42): the slots
`list[0 .. count)`. -/
structure NmapPayloads where
  list : List Payload
  deriving DecidableEq, Repr

/-- The field `count` of `struct NmapPayloads`. -/
def NmapPayloads.count (payloads : NmapPayloads) : Nat := payloads.list.length

/-- One inclusive range `struct Range` of `ranges.h`, with the fields
`begin` and `end` that lines 486-487 and 629-630 assign. -/
structure Range where
  begin : Nat
  end_ : Nat
  deriving DecidableEq, Repr

/-- The type `struct RangeList` of `ranges.h`: the ranges `list[0 .. count)`. -/
abbrev RangeList := List Range

/-- Modelled from the spec: `rangelist_count` of `ranges.c` is not in the
source tree. A port set is "an ordered set of inclusive integer ranges", so
its size is the sum of the sizes of its ranges. -/
def rangelist_count : RangeList → Nat
  | [] => 0
  | r :: rest => (r.end_ + 1 - r.begin) + rangelist_count rest

/-- Modelled from the spec: `rangelist_pick` of `ranges.c` is not in the
source tree. It returns the port number `index` of the set, counting through
the inclusive ranges in order (0 past the end). -/
def rangelist_pick : RangeList → Nat → Nat
  | [], _ => 0
  | r :: rest, index =>
    if index < r.end_ + 1 - r.begin then r.begin + index
    else rangelist_pick rest (index - (r.end_ + 1 - r.begin))

/-- Modelled from the spec: `rangelist_is_contains` of `ranges.c` is not in
the source tree. It "tests PortSet membership for a given port": some
inclusive range of the set holds the number. -/
def rangelist_is_contains : RangeList → Nat → Bool
  | [], _ => false
  | r :: rest, number =>
    if r.begin ≤ number ∧ number ≤ r.end_ then true
    else rangelist_is_contains rest number

/-! ## Partial checksum (lines 98-114) -/

/-- The loop `for (i=0; i<icmp_length; i += 2) xsum += px[i]<<8 | px[i+1];`.
The counter `i` is a 32-bit `unsigned`, the sum a `uint64_t`. Returns the
final `(i, xsum)`, or `none` when the fuel runs out first. -/
def partial_checksum_loop (px : Nat → Nat) (icmp_length : Nat) :
    Nat → Nat → Nat → Option (Nat × Nat)
  | 0, i, xsum => if i < icmp_length then none else some (i, xsum)
  | fuel + 1, i, xsum =>
    if i < icmp_length then
      partial_checksum_loop px icmp_length fuel ((i + 2) % 4294967296)
        ((xsum + ((px i <<< 8) ||| px ((i + 1) % 4294967296)))
          % 18446744073709551616)
    else some (i, xsum)

/-- One carry fold `xsum = (xsum & 0xFFFF) + (xsum >> 16)`. -/
def fold16 (xsum : Nat) : Nat := (xsum &&& 0xFFFF) + (xsum >>> 16)

/-- The function `partial_checksum` (lines 98-114). The loop body runs
`⌈icmp_length / 2⌉` times when the loop is left at all, so `icmp_length`
is enough fuel; the first `none` means that the counter wrapped before
reaching `icmp_length` and the loop never ends (`icmp_length > 2^32 - 2`).
Line 108 loads `px[i - 1]` with `i - 1` taken modulo `2^32`, whatever the
factor `icmp_length & 1` is. For a buffer that is not empty the index is the
last byte of the buffer or, for an odd length, the byte right behind it (the
read that the comment of line 108 admits). For the empty buffer `i` is 0 and
the index is `0xFFFFFFFF`, 4 GiB behind the pointer: that load faults, and
the function returns nothing (the second `none`). -/
def partial_checksum (px : Nat → Nat) (icmp_length : Nat) : Option Nat :=
  match partial_checksum_loop px icmp_length icmp_length 0 0 with
  | none => none
  | some (i, xsum) =>
    if icmp_length < (i + 4294967296 - 1) % 4294967296 then none
    else
      let xsum := (xsum + 18446744073709551616
        - ((icmp_length &&& 1) * px ((i + 4294967296 - 1) % 4294967296))
            % 18446744073709551616) % 18446744073709551616
      let xsum := fold16 xsum
      let xsum := fold16 xsum
      let xsum := fold16 xsum
      some (xsum % 4294967296)

/-! ## Registry (lines 119-187, 362-417) -/

/-- What `payloads_lookup` stores through its four out-parameters when it
returns 1. -/
structure LookupResult where
  px : List Nat
  length : Nat
  source_port : Nat
  xsum : Nat
  deriving DecidableEq, Repr

/-- The scan `for (i=0; i<payloads->count; i++)` of `payloads_lookup`
(lines 134-143) over the slots still to visit. -/
def payloads_lookup_loop (port : Nat) : List Payload → Option LookupResult
  | [] => none
  | p :: rest =>
    if p.port = port then some ⟨p.buf, p.length, p.source_port, p.xsum⟩
    else payloads_lookup_loop port rest

/-- The function `payloads_lookup` (lines 119-144). The registry pointer may
be null (`none`); `some r` is the return value 1 with the out-parameters `r`,
`none` the return value 0. -/
def payloads_lookup (payloads : Option NmapPayloads) (port : Nat) :
    Option LookupResult :=
  match payloads with
  | none => none
  | some payloads => payloads_lookup_loop (port &&& 0xFFFF) payloads.list

/-- The loop `for (i=payloads->count; i>0; i--)` of `payloads_trim`
(lines 176-186): the first argument is `i`, the list the current slots
`list[0 .. count)`. The test adds 65536 to the port in 32-bit arithmetic;
a record that fails it is moved out (`List.eraseIdx` is the `memmove` plus
`count--`). -/
def payloads_trim_loop (ports : RangeList) : Nat → List Payload → List Payload
  | 0, list => list
  | i + 1, list =>
    match list[i]? with
    | none => payloads_trim_loop ports i list
    | some p =>
      if !rangelist_is_contains ports ((p.port + 65536) % 4294967296) then
        payloads_trim_loop ports i (list.eraseIdx i)
      else payloads_trim_loop ports i list

/-- The function `payloads_trim` (lines 171-187). -/
def payloads_trim (payloads : NmapPayloads) (ports : RangeList) : NmapPayloads :=
  ⟨payloads_trim_loop ports payloads.count payloads.list⟩

/-- The search `for (j=0; j<payloads->count; j++) if (p->port <=
payloads->list[j]->port) break;` (lines 397-400): the final `j`. -/
def payload_add_slot (port : Nat) : List Payload → Nat
  | [] => 0
  | q :: rest => if port ≤ q.port then 0 else payload_add_slot port rest + 1

/-- The block "insert in sorted order" (lines 394-414) on the slots
`list[0 .. payloads->count)` and the local variable `count`: returns the new
slots and the new `count`. `payloads->count += count` keeps that many slots
of the array after `p` has been written at `j`. -/
def payload_add_insert (list : List Payload) (count : Nat) (p : Payload) :
    List Payload × Nat :=
  let j := payload_add_slot p.port list
  match list[j]? with
  | some q =>
    if p.port = q.port then
      (list.set j p, 0)
    else
      ((list.take j ++ p :: list.drop j).take (list.length + count), count)
  | none => ((list ++ [p]).take (list.length + count), count)

/-- The body of the loop `for (i=0; i<port_count; i++)` of `payload_add`
(lines 372-415) for one `i`: build the record, then insert it. -/
def payload_add_body (buf : Nat → Nat) (length : Nat) (ports : RangeList)
    (source_port : Nat) (i : Nat) (st : List Payload × Nat) :
    Option (List Payload × Nat) :=
  match partial_checksum buf length with
  | none => none
  | some xsum =>
    let p : Payload :=
      { port := rangelist_pick ports i
        source_port := source_port
        length := length % 4294967296
        buf := (List.range length).map buf
        xsum := xsum }
    some (payload_add_insert st.1 st.2 p)

/-- The loop `for (i=0; i<port_count; i++)` of `payload_add`: the first
argument is the number of iterations left, `port_count - i`. -/
def payload_add_loop (buf : Nat → Nat) (length : Nat) (ports : RangeList)
    (source_port : Nat) : Nat → Nat → List Payload × Nat →
    Option (List Payload × Nat)
  | 0, _, st => some st
  | n + 1, i, st =>
    match payload_add_body buf length ports source_port i st with
    | none => none
    | some st => payload_add_loop buf length ports source_port n (i + 1) st

/-- The function `payload_add` (lines 362-417): the registry afterwards and
the returned `count`; `none` when `partial_checksum` does not return (its
loop does not end, or its load faults for the empty payload). -/
def payload_add (payloads : NmapPayloads) (buf : Nat → Nat) (length : Nat)
    (ports : RangeList) (source_port : Nat) : Option (NmapPayloads × Nat) :=
  match payload_add_loop buf length ports source_port
      (rangelist_count ports) 0 (payloads.list, 1) with
  | none => none
  | some (list, count) => some (⟨list⟩, count)

/-! ## Built-in payloads (lines 44-90, 613-645) -/

/-- The bytes of an ASCII string literal. -/
def ascii (s : String) : List Nat := s.toList.map Char.toNat

/-- The C library function `strlen` on the bytes of a literal (C ends the
literal with a NUL byte): the number of bytes before the first NUL. -/
def strlen (s : List Nat) : Nat := (s.takeWhile (fun c => c != 0)).length

/-- The table `hard_coded_payloads` (lines 44-90), its terminating
`{0,0,0,0,0}` entry included. -/
def hard_coded_payloads : List Payload2 :=
  [ { port := 161, source_port := 65536, length := 57, xsum := 0,
      buf :=
        [0x30, 0x37,
         0x02, 0x01, 0x00,
         0x04, 0x06] ++ ascii "public" ++
        [0xa0, 0x2a,
         0x02, 0x04, 0x00, 0x00, 0x00, 0x00,
         0x02, 0x01, 0x00,
         0x02, 0x01, 0x00,
         0x30, 0x1c,
         0x30, 0x0c,
         0x06, 0x08, 0x2b, 0x06, 0x01, 0x02, 0x01, 0x01, 0x01, 0x00,
         0x05, 0x00,
         0x30, 0x0c,
         0x06, 0x08, 0x2b, 0x06, 0x01, 0x02, 0x01, 0x01, 0x05, 0x00,
         0x05, 0x00] },
    { port := 53, source_port := 65536, length := 38, xsum := 0,
      buf :=
        [0x50, 0xb6,
         0x01, 0x20,
         0x00, 0x01,
         0x00, 0x00, 0x00, 0x00, 0x00, 0x00,
         0x07] ++ ascii "version" ++ [0x04] ++ ascii "bind" ++ [0x00,
         0x00, 0x10,
         0x00, 0x03,
         0x00, 0x00,
         0x01, 0x00,
         0x00, 0x01, 0x00, 0x00, 0x00, 0x00, 0x00, 0x00,
         0x03] ++ ascii "www" ++ [0x05] ++ ascii "yahoo" ++ [0x03] ++
        ascii "com" ++ [0x00,
         0x00, 0x01, 0x00, 0x01] },
    { port := 5060, source_port := 65536, length := 0xFFFFFFFF, xsum := 0,
      buf :=
        ascii "OPTIONS sip:carol@chicago.com SIP/2.0\r\n" ++
        ascii "Via: SIP/2.0/UDP pc33.atlanta.com;branch=z9hG4bKhjhs8ass877\r\n" ++
        ascii "Max-Forwards: 70\r\n" ++
        ascii "To: <sip:carol@chicago.com>\r\n" ++
        ascii "From: Alice <sip:alice@atlanta.com>;tag=1928301774\r\n" ++
        ascii "Call-ID: a84b4c76e66710\r\n" ++
        ascii "CSeq: 63104 OPTIONS\r\n" ++
        ascii "Contact: <sip:alice@pc33.atlanta.com>\r\n" ++
        ascii "Accept: application/sdp\r\n" ++
        ascii "Content-Length: 0\r\n" },
    { port := 0, source_port := 0, length := 0, xsum := 0, buf := [] } ]

/-- The loop `for (i=0; hard_coded_payloads[i].length; i++)` of
`payloads_create` (lines 621-643) over the rest of the table. The buffer
handed to `payload_add` is the literal followed by its NUL byte. -/
def payloads_create_loop : List Payload2 → NmapPayloads → Option NmapPayloads
  | [], payloads => some payloads
  | e :: rest, payloads =>
    if e.length = 0 then some payloads
    else
      let length :=
        if e.length = 0xFFFFFFFF then strlen e.buf % 4294967296 else e.length
      match payload_add payloads (fun i => e.buf.getD i 0) length
          [{ begin := e.port, end_ := e.port }] e.source_port with
      | none => none
      | some (payloads, _) => payloads_create_loop rest payloads

/-- The function `payloads_create` (lines 613-645): the zeroed registry,
then one `payload_add` per table entry. -/
def payloads_create : Option NmapPayloads :=
  payloads_create_loop hard_coded_payloads ⟨[]⟩

/-! ## C-string decoder (lines 213-329, 650-660) -/

/-- The function `append_byte` (lines 213-219) on the bytes
`buf[0 .. *buf_length)`. -/
def append_byte (buf : List Nat) (buf_max : Nat) (c : Nat) : List Nat :=
  if buf.length < buf_max then buf ++ [c % 256] else buf

/-- The function `isodigit` (lines 223-230). -/
def isodigit (c : Nat) : Bool := 48 ≤ c && c ≤ 55

/-- The C library function `isxdigit` in the C locale. -/
def isxdigit (c : Nat) : Bool :=
  (48 ≤ c && c ≤ 57) || (97 ≤ c && c ≤ 102) || (65 ≤ c && c ≤ 70)

/-- The function `hexval` (lines 234-244). -/
def hexval (c : Nat) : Nat :=
  if 48 ≤ c ∧ c ≤ 57 then c - 48
  else if 97 ≤ c ∧ c ≤ 102 then c - 97 + 10
  else if 65 ≤ c ∧ c ≤ 70 then c - 65 + 10
  else 0

/-- One statement `if (isodigit(line[offset])) val = val * 8 +
hexval(line[offset++]);` (lines 268-273) on `(val, offset)`. -/
def octal_step (line : List Nat) (st : Nat × Nat) : Nat × Nat :=
  if isodigit (line.getD st.2 0) then
    (st.1 * 8 + hexval (line.getD st.2 0), st.2 + 1)
  else st

/-- One statement `if (isxdigit(line[offset])) val = val * 16 +
hexval(line[offset++]);` (lines 283-286) on `(val, offset)`. -/
def hex_step (line : List Nat) (st : Nat × Nat) : Nat × Nat :=
  if isxdigit (line.getD st.2 0) then
    (st.1 * 16 + hexval (line.getD st.2 0), st.2 + 1)
  else st

/-- The loop `while (line[offset] && line[offset] != '\"')` of
`parse_c_string` (lines 259-322) on the bytes `buf[0 .. *buf_length)` and
`offset`. `line` is the memory from the pointer `line` on; a read past the
list yields 0. Character codes: 34 is the double quote, 92 the backslash,
48-57 the digits, 120 `x`, and 97, 98, 102, 110, 114, 116, 118 the letters
`a b f n r t v`, decoded to 7, 8, 12, 10, 13, 9, 11. -/
def parse_c_string_loop (buf_max : Nat) (line : List Nat) :
    Nat → List Nat → Nat → Option (List Nat × Nat)
  | 0, _, _ => none
  | fuel + 1, buf, offset =>
    if line.getD offset 0 ≠ 0 ∧ line.getD offset 0 ≠ 34 then
      if line.getD offset 0 = 92 then
        let offset := offset + 1
        let c := line.getD offset 0
        if 48 ≤ c ∧ c ≤ 57 then
          let r := octal_step line (octal_step line (octal_step line (0, offset)))
          parse_c_string_loop buf_max line fuel (append_byte buf buf_max r.1) r.2
        else if c = 120 then
          let r := hex_step line (hex_step line (0, offset + 1))
          parse_c_string_loop buf_max line fuel (append_byte buf buf_max r.1) r.2
        else
          let b :=
            if c = 97 then 7
            else if c = 98 then 8
            else if c = 102 then 12
            else if c = 110 then 10
            else if c = 114 then 13
            else if c = 116 then 9
            else if c = 118 then 11
            else c
          parse_c_string_loop buf_max line fuel (append_byte buf buf_max b)
            (offset + 1)
      else
        parse_c_string_loop buf_max line fuel
          (append_byte buf buf_max (line.getD offset 0)) (offset + 1)
    else
      some (buf, if line.getD offset 0 = 34 then offset + 1 else offset)

/-- The function `parse_c_string` (lines 248-329): the bytes
`buf[0 .. *buf_length)` afterwards and the offset of the returned pointer
from `line`. Every turn of the loop moves `offset` forward over a non-NUL
byte of `line`, so `line.length + 1` turns are enough. -/
def parse_c_string (buf : List Nat) (buf_max : Nat) (line : List Nat) :
    Option (List Nat × Nat) :=
  if line.getD 0 0 ≠ 34 then some (buf, 0)
  else parse_c_string_loop buf_max line (line.length + 1) buf 1

/-- The function `payloads_selftest` (lines 650-660): `memcmp` compares the
first five bytes of `buf`; bytes that were never written count as a
mismatch. `none` when the decoder does not return. -/
def payloads_selftest : Option Nat :=
  match parse_c_string [] 1024 (ascii "\"\\t\\n\\r\\x1f\\123\"") with
  | none => none
  | some (buf, _) =>
    if buf.take 5 ≠ [0x09, 0x0a, 0x0d, 0x1f, 0x53] then some 1 else some 0

/-! ## Template file reader (lines 192-209, 333-357, 508-609)

The line buffer `char line[16384]` is its memory as a list of bytes, read
with `List.getD _ 0`; a C string in it ends at the first NUL. The file is the
sequence of strings that the successive calls of `fgets` store. -/

/-- The C library function `isspace` in the C locale. -/
def isspace (c : Nat) : Bool := c = 32 || (9 ≤ c && c ≤ 13)

/-- The C library function `isdigit`. -/
def isdigit (c : Nat) : Bool := 48 ≤ c && c ≤ 57

/-- The C library call `strlen(line + off)`: the number of bytes from `off`
to the next NUL. -/
def c_strlen (line : List Nat) (off : Nat) : Nat :=
  ((line.drop off).takeWhile (fun c => c != 0)).length

/-- The C library call `memmove(line, line + src, n)`: the first `n` bytes
become the old bytes `src .. src + n`. -/
def memmove_front (line : List Nat) (src n : Nat) : List Nat :=
  (List.range n).map (fun i => line.getD (src + i) 0) ++ line.drop n

/-- The first loop of `trim` (lines 194-195). A turn needs a white-space byte
at `line[0]` and shortens the string by one, so `strlen(line) + 1` turns are
never used up. -/
def trim_leading : Nat → List Nat → List Nat
  | 0, line => line
  | fuel + 1, line =>
    if isspace (line.getD 0 0 &&& 0xFF) then
      trim_leading fuel (memmove_front line 1 (c_strlen line 0))
    else line

/-- The second loop of `trim` (lines 196-197). For the empty string the C
code reads `line[-1]`, the byte in front of the buffer; the model takes that
byte not to be white space. -/
def trim_trailing : Nat → List Nat → List Nat
  | 0, line => line
  | fuel + 1, line =>
    if c_strlen line 0 = 0 then line
    else if isspace (line.getD (c_strlen line 0 - 1) 0 &&& 0xFF) then
      trim_trailing fuel (line.set (c_strlen line 0 - 1) 0)
    else line

/-- The function `trim` (lines 191-198). -/
def trim (line : List Nat) : List Nat :=
  let line := trim_leading (c_strlen line 0 + 1) line
  trim_trailing (c_strlen line 0 + 1) line

/-- The function `is_comment` (lines 202-209): the line starts with `#`, `/`
or `;`. -/
def is_comment (line : List Nat) : Bool :=
  line.getD 0 0 = 35 || line.getD 0 0 = 47 || line.getD 0 0 = 59

/-- What `get_next_line` works on: the strings that `fgets` has still to
deliver, `line_number`, and the memory of `line`. -/
structure Reader where
  fp : List (List Nat)
  line_number : Nat
  line : List Nat
  deriving DecidableEq, Repr

/-- The loop `for (;;)` of `get_next_line` (lines 339-356) over the strings
that `fgets` delivers; `fgets` stores the string and a NUL at the start of
`line`. The Boolean is false when the function returns NULL. -/
def get_next_line_loop : List (List Nat) → Nat → List Nat → Bool × Reader
  | [], line_number, line => (false, ⟨[], line_number, 0 :: line.drop 1⟩)
  | s :: fp, line_number, line =>
    let line := trim (s ++ 0 :: line.drop (s.length + 1))
    if is_comment line then
      get_next_line_loop fp ((line_number + 1) % 4294967296) line
    else if line.getD 0 0 = 0 then
      get_next_line_loop fp ((line_number + 1) % 4294967296) line
    else (true, ⟨fp, (line_number + 1) % 4294967296, line⟩)

/-- The function `get_next_line` (lines 333-357). -/
def get_next_line (rd : Reader) : Bool × Reader :=
  if rd.line.getD 0 0 ≠ 0 then (true, rd)
  else get_next_line_loop rd.fp rd.line_number rd.line

/-- The two messages that `payloads_read_file` prints to `stderr`, with the
line number they carry. -/
inductive Diagnostic where
  | expected_udp (line_number : Nat)
  | expected_source_port (line_number : Nat)
  deriving DecidableEq, Repr

/-- The loop "[C string]" of `payloads_read_file` (lines 548-558) on the
reader and the bytes `buf[0 .. buf_length)`; `none` when the fuel is used up
or the decoder does not return. -/
def read_c_strings : Nat → Reader → List Nat → Option (Reader × List Nat)
  | 0, _, _ => none
  | fuel + 1, rd, buf =>
    match get_next_line { rd with line := trim rd.line } with
    | (false, rd) => some (rd, buf)
    | (true, rd) =>
      if rd.line.getD 0 0 ≠ 34 then some (rd, buf)
      else
        match parse_c_string buf 1500 rd.line with
        | none => none
        | some (buf, off) =>
          read_c_strings fuel
            { rd with line := trim (memmove_front rd.line off (c_strlen rd.line off + 1)) }
            buf

/-- The loop `for (;;)` of `payloads_read_file` (lines 518-580): the registry
at `end:` and the message printed, if any; `none` when the fuel is used up or
`payload_add` does not return. `rangelist_parse_ports` (of `ranges.c`, not in
the source tree) is a parameter that gives the port set and the offset of the
returned pointer from `line`; the C library function `strtoul` is a parameter
too. The bytes of `buf` behind `buf_length` are not initialised; the model
reads them as 0. -/
def payloads_read_file_loop (rangelist_parse_ports : List Nat → RangeList × Nat)
    (strtoul : List Nat → Nat) :
    Nat → Reader → NmapPayloads → Option (NmapPayloads × Option Diagnostic)
  | 0, _, _ => none
  | fuel + 1, rd, payloads =>
    match get_next_line rd with
    | (false, _) => some (payloads, none)
    | (true, rd) =>
      if ¬ (rd.line.getD 0 0 = 117 ∧ rd.line.getD 1 0 = 100 ∧ rd.line.getD 2 0 = 112) then
        some (payloads, some (Diagnostic.expected_udp rd.line_number))
      else
        match get_next_line
            { rd with line := trim (memmove_front rd.line 3 (c_strlen rd.line 0)) } with
        | (false, _) => some (payloads, none)
        | (true, rd) =>
          let ports := (rangelist_parse_ports rd.line).1
          let off := (rangelist_parse_ports rd.line).2
          match read_c_strings fuel
              { rd with line := trim (memmove_front rd.line off (c_strlen rd.line off + 1)) }
              [] with
          | none => none
          | some (rd, buf) =>
            if rd.line.getD 0 0 = 115 ∧ rd.line.getD 1 0 = 111 ∧ rd.line.getD 2 0 = 117 ∧
                rd.line.getD 3 0 = 114 ∧ rd.line.getD 4 0 = 99 ∧ rd.line.getD 5 0 = 101 then
              let line := trim (memmove_front rd.line 6 (c_strlen rd.line 5))
              if ¬ isdigit (line.getD 0 0) then
                some (payloads, some (Diagnostic.expected_source_port rd.line_number))
              else
                match payload_add payloads (fun i => buf.getD i 0) buf.length ports
                    (strtoul line % 4294967296) with
                | none => none
                | some (payloads, _) =>
                  payloads_read_file_loop rangelist_parse_ports strtoul fuel
                    { rd with line := 0 :: line.drop 1 } payloads
            else
              match payload_add payloads (fun i => buf.getD i 0) buf.length ports
                  0x10000 with
              | none => none
              | some (payloads, _) =>
                payloads_read_file_loop rangelist_parse_ports strtoul fuel rd payloads

/-- The function `payloads_read_file` (lines 508-609) with `fuel` turns of
its loops allowed. `stack` is what the memory of `line` holds on entry;
`line[0] = '\0'` overwrites its first byte. -/
def payloads_read_file (rangelist_parse_ports : List Nat → RangeList × Nat)
    (strtoul : List Nat → Nat) (fuel : Nat) (fp : List (List Nat))
    (stack : List Nat) (payloads : NmapPayloads) :
    Option (NmapPayloads × Option Diagnostic) :=
  payloads_read_file_loop rangelist_parse_ports strtoul fuel
    ⟨fp, 0, 0 :: stack.drop 1⟩ payloads

/-! ## Properties used by the statements below -/

/-- Strictly ascending ports: the invariant of the registry. -/
def ascending (payloads : NmapPayloads) : Prop :=
  payloads.list.Pairwise (fun a b => a.port < b.port)

instance (payloads : NmapPayloads) : Decidable (ascending payloads) :=
  inferInstanceAs
    (Decidable (List.Pairwise (fun (a b : Payload) => a.port < b.port) payloads.list))

/-- The registries reachable from `payloads_create` by calls of
`payload_add` (that return) and of `payloads_trim`. -/
inductive Reachable : NmapPayloads → Prop
  | create {r : NmapPayloads} : payloads_create = some r → Reachable r
  | add {r r' : NmapPayloads} {n : Nat} (buf : Nat → Nat)
      (length : Nat) (ports : RangeList) (source_port : Nat) :
      Reachable r → payload_add r buf length ports source_port = some (r', n) →
      Reachable r'
  | trim {r : NmapPayloads} (ports : RangeList) :
      Reachable r → Reachable (payloads_trim r ports)

/-- The test of `payloads_trim` (line 179) on one record: true when the
record is kept. -/
def trim_keeps (ports : RangeList) (p : Payload) : Bool :=
  rangelist_is_contains ports ((p.port + 65536) % 4294967296)

/-- The ports of a range list in the order in which `payload_add` picks
them: `rangelist_pick(ports, i)` for `i = 0 .. rangelist_count(ports) - 1`. -/
def rangelist_ports (ports : RangeList) : List Nat :=
  (List.range (rangelist_count ports)).map (rangelist_pick ports)

/-- The bytes `cs` handed to `append_byte` one after the other. -/
def append_bytes (buf : List Nat) (buf_max : Nat) (cs : List Nat) : List Nat :=
  cs.foldl (fun b c => append_byte b buf_max c) buf

/-- The number that a sequence of octal digit characters denotes. -/
def octal_value (ds : List Nat) : Nat := ds.foldl (fun v c => v * 8 + (c - 48)) 0

/-- The value of one hexadecimal digit character, of either letter case. -/
def hex_digit_value (c : Nat) : Nat :=
  if c ≤ 57 then c - 48 else if c ≤ 70 then c - 55 else c - 87

/-- The number that a sequence of hexadecimal digit characters denotes. -/
def hex_value (hs : List Nat) : Nat :=
  hs.foldl (fun v c => v * 16 + hex_digit_value c) 0

/-- An ordinary character of a string literal: not NUL, not the double quote,
not the backslash. -/
def plain_char (c : Nat) : Prop := c ≠ 0 ∧ c ≠ 34 ∧ c ≠ 92

instance (c : Nat) : Decidable (plain_char c) :=
  inferInstanceAs (Decidable (c ≠ 0 ∧ c ≠ 34 ∧ c ≠ 92))

/-- The sum of the first `m` big-endian 16-bit words of the memory `px`:
word `j` is `px[2j] * 256 + px[2j+1]`. -/
def word_sum (px : Nat → Nat) : Nat → Nat
  | 0 => 0
  | m + 1 => word_sum px m + (px (2 * m) * 256 + px (2 * m + 1))

/-- The reduction "replace `s` with `(s mod 65536) + (s div 65536)` until
`s < 65536`". -/
def carry_fold (s : Nat) : Nat :=
  if h : s < 65536 then s else carry_fold (s % 65536 + s / 65536)
termination_by s
decreasing_by omega

/-- The sum that `partial_checksum` folds for a buffer of `len` bytes: its
`len / 2` big-endian words and, when `len` is odd, the last byte times 256. -/
def checksum_sum (px : Nat → Nat) (len : Nat) : Nat :=
  word_sum px (len / 2) + (len % 2) * (px (len - 1) * 256)

/-! ## Lemmas on `payload_add_insert` -/

theorem payload_add_insert_nil (c : Nat) (p : Payload) :
    payload_add_insert [] c p = ([p].take c, c) := by
  simp [payload_add_insert, payload_add_slot]

theorem payload_add_insert_cons (q : Payload) (l : List Payload) (c : Nat)
    (p : Payload) :
    payload_add_insert (q :: l) c p =
      if p.port ≤ q.port then
        if p.port = q.port then (p :: l, 0)
        else ((p :: q :: l).take (l.length + 1 + c), c)
      else ((q :: (payload_add_insert l c p).1), (payload_add_insert l c p).2) := by
  by_cases h : p.port ≤ q.port
  · simp only [payload_add_insert, payload_add_slot, h, if_true]
    simp
  · simp only [payload_add_insert, payload_add_slot, h, if_false]
    simp only [List.getElem?_cons_succ, List.length_cons]
    cases hj : l[payload_add_slot p.port l]? with
    | none => simp [Nat.add_right_comm]
    | some r =>
      by_cases hr : p.port = r.port
      · simp [hr]
      · simp [hr, Nat.add_right_comm]

theorem mem_payload_add_insert (l : List Payload) (c : Nat) (p r : Payload)
    (h : r ∈ (payload_add_insert l c p).1) : r = p ∨ r ∈ l := by
  induction l with
  | nil =>
    rw [payload_add_insert_nil] at h
    exact Or.inl (by simpa using List.mem_of_mem_take h)
  | cons q l ih =>
    rw [payload_add_insert_cons] at h
    split_ifs at h with h1 h2
    · simp only [List.mem_cons] at h ⊢
      tauto
    · have := List.mem_of_mem_take h
      simpa using this
    · simp only [List.mem_cons] at h ⊢
      rcases h with h | h
      · exact Or.inr (Or.inl h)
      · rcases ih h with h | h
        · exact Or.inl h
        · exact Or.inr (Or.inr h)

theorem pairwise_payload_add_insert (l : List Payload) (c : Nat) (p : Payload)
    (h : l.Pairwise (fun a b => a.port < b.port)) :
    (payload_add_insert l c p).1.Pairwise (fun a b => a.port < b.port) := by
  induction l with
  | nil =>
    rw [payload_add_insert_nil]
    exact List.Pairwise.sublist (List.take_sublist _ _) (List.pairwise_singleton _ _)
  | cons q l ih =>
    rw [payload_add_insert_cons]
    rw [List.pairwise_cons] at h
    split_ifs with h1 h2
    · exact List.pairwise_cons.2 ⟨fun r hr => h2 ▸ h.1 r hr, h.2⟩
    · refine List.Pairwise.sublist (List.take_sublist _ _) ?_
      have hlt : p.port < q.port := lt_of_le_of_ne h1 h2
      refine List.pairwise_cons.2 ⟨?_, List.pairwise_cons.2 h⟩
      intro r hr
      rcases List.mem_cons.1 hr with hr | hr
      · exact hr ▸ hlt
      · exact lt_trans hlt (h.1 r hr)
    · refine List.pairwise_cons.2 ⟨?_, ih h.2⟩
      intro r hr
      rcases mem_payload_add_insert l c p r hr with hr | hr
      · exact hr ▸ not_le.1 h1
      · exact h.1 r hr

theorem payload_add_insert_flag (l : List Payload) (c : Nat) (p : Payload)
    (h : l.Pairwise (fun a b => a.port < b.port)) :
    (payload_add_insert l c p).2 = if ∃ r ∈ l, r.port = p.port then 0 else c := by
  induction l with
  | nil => simp [payload_add_insert_nil]
  | cons q l ih =>
    rw [payload_add_insert_cons]
    rw [List.pairwise_cons] at h
    split_ifs with h1 h2 h3 h3 h3
    · rfl
    · exact absurd ⟨q, List.mem_cons_self _ _, h2.symm⟩ h3
    · obtain ⟨r, hr, hrp⟩ := h3
      rcases List.mem_cons.1 hr with hr | hr
      · exact absurd (hr ▸ hrp).symm h2
      · have := h.1 r hr
        omega
    · rfl
    · obtain ⟨r, hr, hrp⟩ := h3
      rcases List.mem_cons.1 hr with hr | hr
      · subst hr; omega
      · rw [ih h.2, if_pos ⟨r, hr, hrp⟩]
    · rw [ih h.2, if_neg]
      rintro ⟨r, hr, hrp⟩
      exact h3 ⟨r, List.mem_cons_of_mem _ hr, hrp⟩

theorem payload_add_insert_length (l : List Payload) (c : Nat) (p : Payload)
    (hc : c ≤ 1) :
    (payload_add_insert l c p).1.length = l.length + (payload_add_insert l c p).2 := by
  induction l with
  | nil => simp [payload_add_insert_nil, hc]
  | cons q l ih =>
    rw [payload_add_insert_cons]
    split_ifs with h1 h2
    · simp
    · simp only [List.length_take, List.length_cons]
      omega
    · simp only [List.length_cons, ih]
      omega

theorem payloads_lookup_loop_insert (l : List Payload) (c : Nat) (p : Payload)
    (h : l.Pairwise (fun a b => a.port < b.port))
    (hc : c = 1 ∨ ∃ r ∈ l, r.port = p.port) :
    payloads_lookup_loop p.port (payload_add_insert l c p).1 =
      some ⟨p.buf, p.length, p.source_port, p.xsum⟩ := by
  induction l with
  | nil =>
    rcases hc with hc | ⟨r, hr, _⟩
    · subst hc
      simp [payload_add_insert_nil, payloads_lookup_loop]
    · simp at hr
  | cons q l ih =>
    rw [payload_add_insert_cons]
    rw [List.pairwise_cons] at h
    split_ifs with h1 h2
    · simp [payloads_lookup_loop]
    · rw [show l.length + 1 + c = (l.length + c) + 1 by omega, List.take_succ_cons]
      simp [payloads_lookup_loop]
    · have hq : ¬ q.port = p.port := by omega
      simp only [payloads_lookup_loop, hq, if_false]
      apply ih h.2
      rcases hc with hc | ⟨r, hr, hrp⟩
      · exact Or.inl hc
      · rcases List.mem_cons.1 hr with hr | hr
        · exact absurd (hr ▸ hrp) hq
        · exact Or.inr ⟨r, hr, hrp⟩

/-! ## Lemmas on `partial_checksum` -/

theorem partial_checksum_loop_isSome (px : Nat → Nat) (icmp_length : Nat)
    (hlen : icmp_length ≤ 4294967294) (fuel j xsum : Nat)
    (hj : 2 * j ≤ icmp_length + 1) (hfuel : icmp_length ≤ 2 * j + 2 * fuel) :
    ∃ xs, partial_checksum_loop px icmp_length fuel (2 * j) xsum
      = some (2 * ((icmp_length + 1) / 2), xs) := by
  induction fuel generalizing j xsum with
  | zero =>
    have hnot : ¬ 2 * j < icmp_length := by omega
    have hjm : j = (icmp_length + 1) / 2 := by omega
    refine ⟨xsum, ?_⟩
    rw [partial_checksum_loop, if_neg hnot, ← hjm]
  | succ fuel ih =>
    by_cases h : 2 * j < icmp_length
    · simp only [partial_checksum_loop, h, if_true]
      have h2 : (2 * j + 2) % 4294967296 = 2 * (j + 1) := by omega
      rw [h2]
      exact ih _ _ (by omega) (by omega)
    · have hjm : j = (icmp_length + 1) / 2 := by omega
      refine ⟨xsum, ?_⟩
      rw [partial_checksum_loop, if_neg h, ← hjm]

theorem partial_checksum_index (icmp_length : Nat) (hpos : 1 ≤ icmp_length)
    (hlen : icmp_length ≤ 4294967294) :
    ¬ icmp_length
      < (2 * ((icmp_length + 1) / 2) + 4294967296 - 1) % 4294967296 := by
  omega

theorem partial_checksum_isSome (px : Nat → Nat) (icmp_length : Nat)
    (hpos : 1 ≤ icmp_length) (hlen : icmp_length ≤ 4294967294) :
    ∃ x, partial_checksum px icmp_length = some x := by
  obtain ⟨xsum, hr⟩ := partial_checksum_loop_isSome px icmp_length hlen
    icmp_length 0 0 (by omega) (by omega)
  simp only [partial_checksum, hr]
  rw [if_neg (partial_checksum_index icmp_length hpos hlen)]
  exact ⟨_, rfl⟩

theorem partial_checksum_zero (px : Nat → Nat) : partial_checksum px 0 = none := by
  simp [partial_checksum, partial_checksum_loop]

/-! ## Lemmas on `payload_add` -/

theorem payload_add_single (payloads : NmapPayloads) (buf : Nat → Nat)
    (length port source_port x : Nat) (hx : partial_checksum buf length = some x) :
    payload_add payloads buf length [{ begin := port, end_ := port }] source_port =
      some (⟨(payload_add_insert payloads.list 1
          ⟨port, source_port, length % 4294967296, x, (List.range length).map buf⟩).1⟩,
        (payload_add_insert payloads.list 1
          ⟨port, source_port, length % 4294967296, x, (List.range length).map buf⟩).2) := by
  have hc : rangelist_count [{ begin := port, end_ := port }] = 1 := by
    simp [rangelist_count]
  simp [payload_add, hc, payload_add_loop, payload_add_body, hx, rangelist_pick]

/-! ## Lemmas on `payloads_lookup` -/

theorem and_0xFFFF (q : Nat) : q &&& 0xFFFF = q % 65536 :=
  Nat.and_pow_two_sub_one_eq_mod q 16

theorem payloads_lookup_loop_eq_find (port : Nat) (l : List Payload) :
    payloads_lookup_loop port l =
      (l.find? (fun r => r.port == port)).map
        (fun r => ⟨r.buf, r.length, r.source_port, r.xsum⟩) := by
  induction l with
  | nil => rfl
  | cons q l ih =>
    by_cases h : q.port = port
    · simp [payloads_lookup_loop, List.find?_cons, h]
    · have hb : (q.port == port) = false := by simpa using h
      simp [payloads_lookup_loop, List.find?_cons, h, hb, ih]

theorem payloads_lookup_loop_isSome (port : Nat) (l : List Payload) :
    (payloads_lookup_loop port l).isSome ↔ ∃ r ∈ l, r.port = port := by
  induction l with
  | nil => simp [payloads_lookup_loop]
  | cons q l ih =>
    by_cases h : q.port = port
    · simp [payloads_lookup_loop, h]
    · simp [payloads_lookup_loop, h, ih]

/-! ## The claims -/

/-- Override with a payload that is not empty. For a registry with strictly
ascending ports, a port `p < 65536` that already has a record, and a payload
`buf[0 .. length)` of at least one byte (and at most `2^32 - 2`, where the
checksum loop ends) and source port `s`: `payload_add` with the single-port
set `{p}` returns 0, leaves the count unchanged, and `payloads_lookup(p)` then
returns the bytes of the payload, its length, `s` and `partial_checksum` of
the payload. -/
theorem override_existing_port (payloads : NmapPayloads) (p : Nat)
    (buf : Nat → Nat) (length s : Nat)
    (hasc : ascending payloads) (hp : p < 65536)
    (hrec : ∃ r ∈ payloads.list, r.port = p) (hpos : 1 ≤ length)
    (hlen : length ≤ 4294967294) :
    ∃ payloads' x,
      partial_checksum buf length = some x ∧
      payload_add payloads buf length [{ begin := p, end_ := p }] s
        = some (payloads', 0) ∧
      payloads'.count = payloads.count ∧
      payloads_lookup (some payloads') p
        = some ⟨(List.range length).map buf, length, s, x⟩ := by
  obtain ⟨x, hx⟩ := partial_checksum_isSome buf length hpos hlen
  have hmod : length % 4294967296 = length := Nat.mod_eq_of_lt (by omega)
  have hflag := payload_add_insert_flag payloads.list 1
    ⟨p, s, length % 4294967296, x, (List.range length).map buf⟩ hasc
  rw [if_pos hrec] at hflag
  have hlength := payload_add_insert_length payloads.list 1
    ⟨p, s, length % 4294967296, x, (List.range length).map buf⟩ (le_refl 1)
  have hlook := payloads_lookup_loop_insert payloads.list 1
    ⟨p, s, length % 4294967296, x, (List.range length).map buf⟩ hasc (Or.inl rfl)
  refine ⟨⟨(payload_add_insert payloads.list 1
    ⟨p, s, length % 4294967296, x, (List.range length).map buf⟩).1⟩, x, hx, ?_, ?_, ?_⟩
  · rw [payload_add_single payloads buf length p s x hx, hflag]
  · simp only [NmapPayloads.count, hlength, hflag, Nat.add_zero]
  · simp only [payloads_lookup, and_0xFFFF, Nat.mod_eq_of_lt hp]
    rw [hlook, hmod]

/-- An instance of `override_existing_port`: the record of port 53 is
overridden by a 3-byte payload. -/
theorem override_existing_port_witness :
    ∃ payloads' x,
      partial_checksum (fun _ => 7) 3 = some x ∧
      payload_add ⟨[⟨53, 65536, 1, 0, [0]⟩]⟩ (fun _ => 7) 3
        [{ begin := 53, end_ := 53 }] 5 = some (payloads', 0) ∧
      payloads'.count = NmapPayloads.count ⟨[⟨53, 65536, 1, 0, [0]⟩]⟩ ∧
      payloads_lookup (some payloads') 53
        = some ⟨(List.range 3).map (fun _ => 7), 3, 5, x⟩ :=
  override_existing_port ⟨[⟨53, 65536, 1, 0, [0]⟩]⟩ 53 (fun _ => 7) 3 5
    (by decide) (by decide) ⟨_, List.mem_singleton.2 rfl, rfl⟩ (by decide)
    (by decide)

/-- C2 at a failing input. The registry holds port 53 and `payload_add` is
called with the single-port set `{53}` and an empty payload (`length = 0`, as
a template record without a string literal gives). `partial_checksum` loads
`px[0xFFFFFFFF]` and faults, so `payload_add` does not return: the record is
not replaced and no lookup follows. -/
theorem override_with_empty_payload_faults :
    ascending ⟨[⟨53, 65536, 1, 0, [0]⟩]⟩ ∧
    (∃ r ∈ (⟨[⟨53, 65536, 1, 0, [0]⟩]⟩ : NmapPayloads).list, r.port = 53) ∧
    partial_checksum (fun _ => 0) 0 = none ∧
    payload_add ⟨[⟨53, 65536, 1, 0, [0]⟩]⟩ (fun _ => 0) 0
      [{ begin := 53, end_ := 53 }] 65536 = none := by
  decide

/-- New insertion with a payload that is not empty. For a registry with
strictly ascending ports, a port `p < 65536` that has no record, and a payload
`buf[0 .. length)` of at least one byte (and at most `2^32 - 2`, where the
checksum loop ends) and source port `s`: `payload_add` with the single-port
set `{p}` returns 1, the count grows by exactly one, and `payloads_lookup(p)`
then returns the bytes of the payload, its length, `s` and `partial_checksum`
of the payload. -/
theorem insert_new_port (payloads : NmapPayloads) (p : Nat)
    (buf : Nat → Nat) (length s : Nat)
    (hasc : ascending payloads) (hp : p < 65536)
    (hrec : ¬ ∃ r ∈ payloads.list, r.port = p) (hpos : 1 ≤ length)
    (hlen : length ≤ 4294967294) :
    ∃ payloads' x,
      partial_checksum buf length = some x ∧
      payload_add payloads buf length [{ begin := p, end_ := p }] s
        = some (payloads', 1) ∧
      payloads'.count = payloads.count + 1 ∧
      payloads_lookup (some payloads') p
        = some ⟨(List.range length).map buf, length, s, x⟩ := by
  obtain ⟨x, hx⟩ := partial_checksum_isSome buf length hpos hlen
  have hmod : length % 4294967296 = length := Nat.mod_eq_of_lt (by omega)
  have hflag := payload_add_insert_flag payloads.list 1
    ⟨p, s, length % 4294967296, x, (List.range length).map buf⟩ hasc
  rw [if_neg hrec] at hflag
  have hlength := payload_add_insert_length payloads.list 1
    ⟨p, s, length % 4294967296, x, (List.range length).map buf⟩ (le_refl 1)
  have hlook := payloads_lookup_loop_insert payloads.list 1
    ⟨p, s, length % 4294967296, x, (List.range length).map buf⟩ hasc (Or.inl rfl)
  refine ⟨⟨(payload_add_insert payloads.list 1
    ⟨p, s, length % 4294967296, x, (List.range length).map buf⟩).1⟩, x, hx, ?_, ?_, ?_⟩
  · rw [payload_add_single payloads buf length p s x hx, hflag]
  · simp only [NmapPayloads.count, hlength, hflag]
  · simp only [payloads_lookup, and_0xFFFF, Nat.mod_eq_of_lt hp]
    rw [hlook, hmod]

/-- An instance of `insert_new_port`: port 161 is new in a registry that
holds port 53. -/
theorem insert_new_port_witness :
    ∃ payloads' x,
      partial_checksum (fun _ => 7) 3 = some x ∧
      payload_add ⟨[⟨53, 65536, 1, 0, [0]⟩]⟩ (fun _ => 7) 3
        [{ begin := 161, end_ := 161 }] 5 = some (payloads', 1) ∧
      payloads'.count = NmapPayloads.count ⟨[⟨53, 65536, 1, 0, [0]⟩]⟩ + 1 ∧
      payloads_lookup (some payloads') 161
        = some ⟨(List.range 3).map (fun _ => 7), 3, 5, x⟩ :=
  insert_new_port ⟨[⟨53, 65536, 1, 0, [0]⟩]⟩ 161 (fun _ => 7) 3 5
    (by decide) (by decide) (by decide) (by decide) (by decide)

/-- C3 at a failing input. The registry holds port 53 only and `payload_add`
is called with the single-port set `{161}` and an empty payload
(`length = 0`, as a UDP frame without application data gives).
`partial_checksum` loads `px[0xFFFFFFFF]` and faults, so `payload_add` does
not return: no record is inserted and nothing is returned. -/
theorem insert_with_empty_payload_faults :
    ascending ⟨[⟨53, 65536, 1, 0, [0]⟩]⟩ ∧
    (¬ ∃ r ∈ (⟨[⟨53, 65536, 1, 0, [0]⟩]⟩ : NmapPayloads).list, r.port = 161) ∧
    partial_checksum (fun _ => 0) 0 = none ∧
    payload_add ⟨[⟨53, 65536, 1, 0, [0]⟩]⟩ (fun _ => 0) 0
      [{ begin := 161, end_ := 161 }] 65536 = none := by
  decide

/-- C7. `payloads_lookup(q)` returns the fields of the first record whose
port is `q mod 65536` and reports not-found when there is none; so it is
found exactly when some record has that port, `q` and `q + 65536` (also when
the sum wraps at `2^32`) give the same result, and a null registry gives
not-found. -/
theorem payloads_lookup_masks_port :
    (∀ (payloads : NmapPayloads) (q : Nat),
      payloads_lookup (some payloads) q =
        (payloads.list.find? (fun r => r.port == q % 65536)).map
          (fun r => ⟨r.buf, r.length, r.source_port, r.xsum⟩)) ∧
    (∀ (payloads : NmapPayloads) (q : Nat),
      (payloads_lookup (some payloads) q).isSome ↔
        ∃ r ∈ payloads.list, r.port = q % 65536) ∧
    (∀ (payloads : Option NmapPayloads) (q : Nat),
      payloads_lookup payloads (q + 65536) = payloads_lookup payloads q ∧
      payloads_lookup payloads ((q + 65536) % 4294967296)
        = payloads_lookup payloads q) ∧
    (∀ q : Nat, payloads_lookup none q = none) := by
  refine ⟨?_, ?_, ?_, fun _ => rfl⟩
  · intro payloads q
    simp only [payloads_lookup, and_0xFFFF, payloads_lookup_loop_eq_find]
  · intro payloads q
    simp only [payloads_lookup, and_0xFFFF, payloads_lookup_loop_isSome]
  · intro payloads q
    cases payloads with
    | none => simp only [payloads_lookup, and_self]
    | some payloads =>
      simp only [payloads_lookup, and_0xFFFF]
      have h1 : (q + 65536) % 65536 = q % 65536 := by omega
      have h2 : (q + 65536) % 4294967296 % 65536 = q % 65536 := by omega
      rw [h1, h2]
      exact ⟨rfl, rfl⟩

/-- C8 (self-test vector). The line `"\t\n\r\x1f\123"` is the 16 characters
listed; `parse_c_string` on an empty buffer of capacity 1024 leaves exactly
the five bytes 0x09, 0x0A, 0x0D, 0x1F, 0x53 and returns the position behind
the closing quote, and `payloads_selftest` returns 0. -/
theorem payloads_selftest_passes :
    ascii "\"\\t\\n\\r\\x1f\\123\""
      = [34, 92, 116, 92, 110, 92, 114, 92, 120, 49, 102, 92, 49, 50, 51, 34] ∧
    parse_c_string [] 1024
        [34, 92, 116, 92, 110, 92, 114, 92, 120, 49, 102, 92, 49, 50, 51, 34]
      = some ([0x09, 0x0A, 0x0D, 0x1F, 0x53], 16) ∧
    payloads_selftest = some 0 := by
  exact ⟨rfl, rfl, rfl⟩

/-! ## Lemmas on `payloads_trim` -/

theorem payloads_trim_loop_eq (ports : RangeList) (i : Nat) (l : List Payload) :
    payloads_trim_loop ports i l
      = (l.take i).filter (trim_keeps ports) ++ l.drop i := by
  induction i generalizing l with
  | zero => simp [payloads_trim_loop]
  | succ i ih =>
    rw [payloads_trim_loop]
    cases hp : l[i]? with
    | none =>
      have hle : l.length ≤ i := List.getElem?_eq_none_iff.1 hp
      simp only [ih]
      rw [List.take_of_length_le hle, List.take_of_length_le (by omega),
        List.drop_of_length_le hle, List.drop_of_length_le (by omega)]
    | some p =>
      have hlt : i < l.length := by
        by_contra hge
        rw [List.getElem?_eq_none_iff.2 (not_lt.1 hge)] at hp
        exact Option.noConfusion hp
      have hpi : l[i] = p := by
        rw [List.getElem?_eq_getElem hlt] at hp
        exact Option.some.inj hp
      have htake : l.take (i + 1) = l.take i ++ [p] := by
        rw [List.take_succ, hp]; rfl
      have hdrop : l.drop i = p :: l.drop (i + 1) := by
        rw [List.drop_eq_getElem_cons hlt, hpi]
      have hlen : (l.take i).length = i := by
        rw [List.length_take]; omega
      by_cases hk : trim_keeps ports p = true
      · have hk' : rangelist_is_contains ports ((p.port + 65536) % 4294967296)
            = true := hk
        simp only [hk', Bool.not_true, Bool.false_eq_true, if_false]
        rw [ih, htake, hdrop, List.filter_append]
        simp [List.filter_cons, hk]
      · have hk' : rangelist_is_contains ports ((p.port + 65536) % 4294967296)
            = false := by simpa [trim_keeps] using hk
        simp only [hk', Bool.not_false, if_true]
        rw [ih, htake, List.filter_append, List.eraseIdx_eq_take_drop_succ]
        have h1 : (l.take i ++ l.drop (i + 1)).take i = l.take i := by
          rw [List.take_append_of_le_length (by omega), List.take_of_length_le (by omega)]
        have h2 : (l.take i ++ l.drop (i + 1)).drop i = l.drop (i + 1) := by
          rw [List.drop_append_of_le_length (by omega), List.drop_of_length_le (by omega)]
          rfl
        rw [h1, h2]
        simp [List.filter_cons, hk]

theorem payloads_trim_eq_filter (payloads : NmapPayloads) (ports : RangeList) :
    payloads_trim payloads ports = ⟨payloads.list.filter (trim_keeps ports)⟩ := by
  simp [payloads_trim, NmapPayloads.count, payloads_trim_loop_eq]

theorem payloads_lookup_loop_filter (ports : RangeList) (port : Nat)
    (l : List Payload) :
    payloads_lookup_loop port (l.filter (trim_keeps ports)) =
      if rangelist_is_contains ports ((port + 65536) % 4294967296) then
        payloads_lookup_loop port l
      else none := by
  induction l with
  | nil => simp [payloads_lookup_loop]
  | cons q l ih =>
    by_cases hq : q.port = port
    · by_cases hk : rangelist_is_contains ports ((port + 65536) % 4294967296) = true
      · have : trim_keeps ports q = true := by simpa [trim_keeps, hq] using hk
        simp [List.filter_cons, this, payloads_lookup_loop, hq, hk]
      · have : trim_keeps ports q = false := by simpa [trim_keeps, hq] using hk
        rw [List.filter_cons, this]
        simp only [Bool.false_eq_true, if_false]
        rw [ih, if_neg hk, if_neg hk]
    · by_cases hk : trim_keeps ports q = true
      · simp [List.filter_cons, hk, payloads_lookup_loop, hq, ih]
      · have hk' : trim_keeps ports q = false := by simpa using hk
        simp [List.filter_cons, hk', payloads_lookup_loop, hq, ih]

/-! ## The registry invariant -/

theorem payload_add_loop_pairwise (buf : Nat → Nat) (length : Nat)
    (ports : RangeList) (source_port : Nat) (n i : Nat)
    (st st' : List Payload × Nat)
    (h : st.1.Pairwise (fun a b => a.port < b.port))
    (hst : payload_add_loop buf length ports source_port n i st = some st') :
    st'.1.Pairwise (fun a b => a.port < b.port) := by
  induction n generalizing i st with
  | zero =>
    simp only [payload_add_loop, Option.some.injEq] at hst
    exact hst ▸ h
  | succ n ih =>
    rw [payload_add_loop] at hst
    cases hb : payload_add_body buf length ports source_port i st with
    | none => rw [hb] at hst; exact Option.noConfusion hst
    | some st1 =>
      rw [hb] at hst
      refine ih (i + 1) st1 ?_ hst
      unfold payload_add_body at hb
      cases hx : partial_checksum buf length with
      | none => rw [hx] at hb; exact Option.noConfusion hb
      | some x =>
        rw [hx] at hb
        simp only [Option.some.injEq] at hb
        rw [← hb]
        exact pairwise_payload_add_insert _ _ _ h

theorem payload_add_ascending (payloads payloads' : NmapPayloads)
    (buf : Nat → Nat) (length : Nat) (ports : RangeList) (source_port n : Nat)
    (h : ascending payloads)
    (hadd : payload_add payloads buf length ports source_port = some (payloads', n)) :
    ascending payloads' := by
  unfold payload_add at hadd
  cases hl : payload_add_loop buf length ports source_port
      (rangelist_count ports) 0 (payloads.list, 1) with
  | none => rw [hl] at hadd; exact Option.noConfusion hadd
  | some st =>
    rw [hl] at hadd
    have := payload_add_loop_pairwise buf length ports source_port _ _
      (payloads.list, 1) _ h hl
    simp only [Option.some.injEq, Prod.mk.injEq] at hadd
    rw [← hadd.1]
    exact this

theorem payloads_create_loop_ascending (table : List Payload2)
    (payloads payloads' : NmapPayloads) (h : ascending payloads)
    (hc : payloads_create_loop table payloads = some payloads') :
    ascending payloads' := by
  induction table generalizing payloads with
  | nil =>
    simp only [payloads_create_loop, Option.some.injEq] at hc
    exact hc ▸ h
  | cons e rest ih =>
    rw [payloads_create_loop] at hc
    by_cases h0 : e.length = 0
    · rw [if_pos h0] at hc
      simp only [Option.some.injEq] at hc
      exact hc ▸ h
    · rw [if_neg h0] at hc
      revert hc
      dsimp only
      generalize (if e.length = 4294967295 then strlen e.buf % 4294967296
        else e.length) = len
      intro hc
      cases hadd : payload_add payloads (fun i => e.buf.getD i 0) len
          [{ begin := e.port, end_ := e.port }] e.source_port with
      | none => rw [hadd] at hc; exact Option.noConfusion hc
      | some rn =>
        obtain ⟨r, n⟩ := rn
        rw [hadd] at hc
        exact ih r (payload_add_ascending _ _ _ _ _ _ _ h hadd) hc

theorem payloads_trim_ascending (payloads : NmapPayloads) (ports : RangeList)
    (h : ascending payloads) : ascending (payloads_trim payloads ports) := by
  rw [payloads_trim_eq_filter]
  exact List.Pairwise.sublist (List.filter_sublist _) h

/-- C1 (invariant). Every registry reachable from `payloads_create` by calls
of `payload_add` (any payload, port set and source port) and of
`payloads_trim` (any keep set) holds its records in strictly ascending port
order; so the ports of its records are pairwise different. -/
theorem reachable_ascending (payloads : NmapPayloads) (h : Reachable payloads) :
    ascending payloads ∧ (payloads.list.map (fun r => r.port)).Nodup := by
  have hasc : ascending payloads := by
    induction h with
    | create hc =>
      exact payloads_create_loop_ascending _ _ _ List.Pairwise.nil hc
    | add buf length ports source_port _ hadd ih =>
      exact payload_add_ascending _ _ _ _ _ _ _ ih hadd
    | trim ports _ ih => exact payloads_trim_ascending _ _ ih
  refine ⟨hasc, ?_⟩
  unfold List.Nodup
  rw [List.pairwise_map]
  exact List.Pairwise.imp (fun hab => Nat.ne_of_lt hab) hasc

set_option maxRecDepth 100000 in
/-- Witness of C1: the registry that `payloads_create` returns. -/
theorem reachable_ascending_witness :
    Reachable (payloads_create.getD ⟨[]⟩) ∧
    ascending (payloads_create.getD ⟨[]⟩) ∧
    ((payloads_create.getD ⟨[]⟩).list.map (fun r => r.port)).Nodup :=
  ⟨Reachable.create (by rfl),
    reachable_ascending (payloads_create.getD ⟨[]⟩) (Reachable.create (by rfl))⟩

/-- C6 read as written fails: the registry holds port 53 and the keep set is
`{53}`, yet after `payloads_trim` the lookup of 53 reports not-found and the
count is 0 (the test of line 179 looks for `53 + 65536` in the keep set). -/
theorem trim_plain_membership_fails :
    ascending ⟨[⟨53, 65536, 1, 0, [0]⟩]⟩ ∧
    (payloads_lookup (some ⟨[⟨53, 65536, 1, 0, [0]⟩]⟩) 53).isSome = true ∧
    rangelist_is_contains [{ begin := 53, end_ := 53 }] 53 = true ∧
    payloads_lookup
      (some (payloads_trim ⟨[⟨53, 65536, 1, 0, [0]⟩]⟩ [{ begin := 53, end_ := 53 }]))
      53 = none ∧
    (payloads_trim ⟨[⟨53, 65536, 1, 0, [0]⟩]⟩ [{ begin := 53, end_ := 53 }]).count
      = 0 := by
  decide

/-- C6 as amended. After `payloads_trim(S)`, `payloads_lookup(p)` succeeds
exactly when it succeeded before the trim and `(p mod 65536) + 65536` is
contained in `S`, and then it returns what it returned before; the resulting
count is the number of previous records whose port plus 65536 (in 32-bit
arithmetic) is contained in `S`. This holds for every registry, in
particular for those with strictly ascending ports. -/
theorem trim_keeps_offset_ports :
    (∀ (payloads : NmapPayloads) (S : RangeList) (p : Nat),
      ((payloads_lookup (some (payloads_trim payloads S)) p).isSome ↔
        (payloads_lookup (some payloads) p).isSome ∧
          rangelist_is_contains S (p % 65536 + 65536) = true) ∧
      (rangelist_is_contains S (p % 65536 + 65536) = true →
        payloads_lookup (some (payloads_trim payloads S)) p
          = payloads_lookup (some payloads) p)) ∧
    (∀ (payloads : NmapPayloads) (S : RangeList),
      (payloads_trim payloads S).count =
        (payloads.list.filter (fun r =>
          rangelist_is_contains S ((r.port + 65536) % 4294967296))).length) := by
  refine ⟨?_, ?_⟩
  · intro payloads S p
    have hmod : (p % 65536 + 65536) % 4294967296 = p % 65536 + 65536 :=
      Nat.mod_eq_of_lt (by omega)
    have hl := payloads_lookup_loop_filter S (p % 65536) payloads.list
    rw [hmod] at hl
    simp only [payloads_lookup, and_0xFFFF, payloads_trim_eq_filter]
    rw [hl]
    by_cases hk : rangelist_is_contains S (p % 65536 + 65536) = true
    · simp [hk]
    · simp [hk]
  · intro payloads S
    rw [payloads_trim_eq_filter]
    rfl

/-! ## The value returned by `payload_add` -/

/-- C4 at a failing input. The registry holds ports 53, 161 and 5060 in
ascending order and `payload_add` is called with the port set `{53, 5353}`
and a one-byte payload. Port 53 is replaced, which sets the local `count`
to 0; the record of port 5353 is then written behind the last slot, but
`payloads->count += count` adds 0, so the call returns with three records
and `payloads_lookup(5353)` reports not-found although 5353 is in the set. -/
theorem multi_port_add_loses_new_port :
    ascending ⟨[⟨53, 65536, 1, 0, [1]⟩, ⟨161, 65536, 1, 0, [2]⟩,
      ⟨5060, 65536, 1, 0, [3]⟩]⟩ ∧
    rangelist_is_contains
      [{ begin := 53, end_ := 53 }, { begin := 5353, end_ := 5353 }] 5353 = true ∧
    payload_add
      ⟨[⟨53, 65536, 1, 0, [1]⟩, ⟨161, 65536, 1, 0, [2]⟩, ⟨5060, 65536, 1, 0, [3]⟩]⟩
      (fun _ => 7) 1
      [{ begin := 53, end_ := 53 }, { begin := 5353, end_ := 5353 }] 65536
      = some (⟨[⟨53, 65536, 1, 1792, [7]⟩, ⟨161, 65536, 1, 0, [2]⟩,
          ⟨5060, 65536, 1, 0, [3]⟩]⟩, 0) ∧
    payloads_lookup
      (some ⟨[⟨53, 65536, 1, 1792, [7]⟩, ⟨161, 65536, 1, 0, [2]⟩,
        ⟨5060, 65536, 1, 0, [3]⟩]⟩) 5353 = none := by
  decide

theorem getD_append_add (pre l : List Nat) (k : Nat) :
    (pre ++ l).getD (pre.length + k) 0 = l.getD k 0 := by
  rw [List.getD_append_right _ _ _ _ (Nat.le_add_right _ _)]
  simp

theorem getD_append_length (pre l : List Nat) :
    (pre ++ l).getD pre.length 0 = l.getD 0 0 := by
  simpa using getD_append_add pre l 0

theorem parse_c_string_loop_quote (buf_max : Nat) (line : List Nat)
    (fuel : Nat) (buf : List Nat) (offset : Nat)
    (h : line.getD offset 0 = 34) :
    parse_c_string_loop buf_max line (fuel + 1) buf offset
      = some (buf, offset + 1) := by
  rw [parse_c_string_loop, if_neg (fun hh => hh.2 h), if_pos h]

theorem parse_c_string_loop_plain (buf_max : Nat) (pre mid post : List Nat)
    (hmid : ∀ c ∈ mid, plain_char c) (fuel : Nat) (buf : List Nat) :
    parse_c_string_loop buf_max (pre ++ (mid ++ post)) (fuel + mid.length) buf
        pre.length
      = parse_c_string_loop buf_max (pre ++ (mid ++ post)) fuel
          (append_bytes buf buf_max mid) (pre.length + mid.length) := by
  induction mid generalizing pre buf with
  | nil => simp [append_bytes]
  | cons c mid ih =>
    obtain ⟨h0, h34, h92⟩ := hmid c (List.mem_cons_self _ _)
    have hget : (pre ++ (c :: mid ++ post)).getD pre.length 0 = c := by
      rw [getD_append_length]; rfl
    have hstep : parse_c_string_loop buf_max (pre ++ (c :: mid ++ post))
        (fuel + mid.length + 1) buf pre.length
        = parse_c_string_loop buf_max (pre ++ (c :: mid ++ post))
          (fuel + mid.length) (append_byte buf buf_max c) (pre.length + 1) := by
      rw [parse_c_string_loop]
      simp only [hget, h0, h34, h92, ne_eq, not_false_eq_true, and_self, if_true,
        if_false]
    have hih := ih (pre ++ [c]) (fun d hd => hmid d (List.mem_cons_of_mem _ hd))
      (append_byte buf buf_max c)
    simp only [List.append_assoc, List.singleton_append, List.length_append,
      List.length_singleton] at hih
    rw [List.length_cons, ← Nat.add_assoc, hstep]
    simp only [List.cons_append] at hih ⊢
    rw [hih]
    simp only [append_bytes, List.foldl_cons]
    congr 1
    omega

theorem octal_step_offset (line : List Nat) (st : Nat × Nat) :
    st.2 ≤ (octal_step line st).2 := by
  unfold octal_step
  split_ifs
  · exact Nat.le_succ _
  · exact Nat.le_refl _

theorem hex_step_offset (line : List Nat) (st : Nat × Nat) :
    st.2 ≤ (hex_step line st).2 := by
  unfold hex_step
  split_ifs
  · exact Nat.le_succ _
  · exact Nat.le_refl _

theorem parse_c_string_loop_returns (buf_max : Nat) (line : List Nat)
    (fuel : Nat) (buf : List Nat) (offset : Nat)
    (hfuel : line.length ≤ offset + fuel) :
    ∃ r, parse_c_string_loop buf_max line (fuel + 1) buf offset = some r := by
  induction fuel generalizing buf offset with
  | zero =>
    have h0 : line.getD offset 0 = 0 := by
      rw [List.getD_eq_getElem?_getD, List.getElem?_eq_none (by omega)]
      rfl
    rw [parse_c_string_loop, if_neg (fun hh => hh.1 h0)]
    exact ⟨_, rfl⟩
  | succ fuel ih =>
    rw [parse_c_string_loop]
    by_cases hc : line.getD offset 0 ≠ 0 ∧ line.getD offset 0 ≠ 34
    · have hlt : offset < line.length := by
        by_contra hge
        apply hc.1
        rw [List.getD_eq_getElem?_getD, List.getElem?_eq_none (by omega)]
        rfl
      rw [if_pos hc]
      by_cases h92 : line.getD offset 0 = 92
      · rw [if_pos h92]
        dsimp only
        by_cases hdig : 48 ≤ line.getD (offset + 1) 0 ∧ line.getD (offset + 1) 0 ≤ 57
        · rw [if_pos hdig]
          have o1 := octal_step_offset line (0, offset + 1)
          have o2 := octal_step_offset line (octal_step line (0, offset + 1))
          have o3 := octal_step_offset line
            (octal_step line (octal_step line (0, offset + 1)))
          exact ih _ (octal_step line (octal_step line (octal_step line
            (0, offset + 1)))).2 (by simp only at o1; omega)
        · rw [if_neg hdig]
          by_cases hx : line.getD (offset + 1) 0 = 120
          · rw [if_pos hx]
            have x1 := hex_step_offset line (0, offset + 1 + 1)
            have x2 := hex_step_offset line (hex_step line (0, offset + 1 + 1))
            exact ih _ (hex_step line (hex_step line (0, offset + 1 + 1))).2
              (by simp only at x1; omega)
          · rw [if_neg hx]
            exact ih _ (offset + 1 + 1) (by omega)
      · rw [if_neg h92]
        exact ih _ (offset + 1) (by omega)
    · rw [if_neg hc]
      exact ⟨_, rfl⟩

theorem parse_c_string_returns (buf : List Nat) (buf_max : Nat) (line : List Nat) :
    ∃ r, parse_c_string buf buf_max line = some r := by
  unfold parse_c_string
  split_ifs
  · exact ⟨_, rfl⟩
  · exact parse_c_string_loop_returns buf_max line line.length buf 1 (by omega)

theorem isodigit_eq_true (c : Nat) (h : 48 ≤ c ∧ c ≤ 55) : isodigit c = true := by
  simp [isodigit, h.1, h.2]

theorem hexval_octal (c : Nat) (h : 48 ≤ c ∧ c ≤ 55) : hexval c = c - 48 := by
  have : 48 ≤ c ∧ c ≤ 57 := ⟨h.1, by omega⟩
  simp [hexval, this]

theorem octal_step_digit (line : List Nat) (val offset : Nat)
    (h : 48 ≤ line.getD offset 0 ∧ line.getD offset 0 ≤ 55) :
    octal_step line (val, offset)
      = (val * 8 + (line.getD offset 0 - 48), offset + 1) := by
  unfold octal_step
  rw [if_pos (isodigit_eq_true _ h), hexval_octal _ h]

theorem octal_step_other (line : List Nat) (val offset : Nat)
    (h : isodigit (line.getD offset 0) = false) :
    octal_step line (val, offset) = (val, offset) := by
  unfold octal_step
  rw [if_neg (by rw [h]; exact Bool.false_ne_true)]

theorem parse_c_string_loop_octal_case (buf_max : Nat) (line : List Nat)
    (fuel : Nat) (buf : List Nat) (offset : Nat)
    (h92 : line.getD offset 0 = 92)
    (hd : 48 ≤ line.getD (offset + 1) 0 ∧ line.getD (offset + 1) 0 ≤ 57) :
    parse_c_string_loop buf_max line (fuel + 1) buf offset
      = parse_c_string_loop buf_max line fuel
          (append_byte buf buf_max
            (octal_step line (octal_step line (octal_step line (0, offset + 1)))).1)
          (octal_step line (octal_step line (octal_step line (0, offset + 1)))).2 := by
  rw [parse_c_string_loop]
  rw [if_pos ⟨by rw [h92]; decide, by rw [h92]; decide⟩, if_pos h92]
  simp only [hd, and_self, if_true]

theorem parse_c_string_loop_octal (buf_max : Nat) (pre d post : List Nat)
    (hne : d ≠ []) (hd : ∀ c ∈ d, 48 ≤ c ∧ c ≤ 55) (hlen : d.length ≤ 3)
    (hnext : d.length = 3 ∨ isodigit (post.getD 0 0) = false)
    (fuel : Nat) (buf : List Nat) :
    parse_c_string_loop buf_max (pre ++ (92 :: d ++ post)) (fuel + 1) buf pre.length
      = parse_c_string_loop buf_max (pre ++ (92 :: d ++ post)) fuel
          (append_byte buf buf_max (octal_value d)) (pre.length + 1 + d.length) := by
  have g0 : (pre ++ (92 :: d ++ post)).getD pre.length 0 = 92 := by
    rw [getD_append_length]; rfl
  match d, hne, hd, hlen, hnext with
  | [a], _, hd, _, hnext =>
    have ha := hd a (List.mem_singleton.2 rfl)
    have g1 : (pre ++ (92 :: [a] ++ post)).getD (pre.length + 1) 0 = a := by
      rw [getD_append_add]; rfl
    have g2 : (pre ++ (92 :: [a] ++ post)).getD (pre.length + 1 + 1) 0
        = post.getD 0 0 := by
      rw [Nat.add_assoc, getD_append_add]; rfl
    have hn : isodigit (post.getD 0 0) = false := by
      rcases hnext with h | h
      · simp at h
      · exact h
    have e1 := octal_step_digit (pre ++ (92 :: [a] ++ post)) 0 (pre.length + 1)
      (by rw [g1]; exact ha)
    have e2 := octal_step_other (pre ++ (92 :: [a] ++ post)) (0 * 8 + (a - 48))
      (pre.length + 1 + 1) (by rw [g2]; exact hn)
    rw [g1] at e1
    rw [parse_c_string_loop_octal_case _ _ _ _ _ g0 (by rw [g1]; omega), e1, e2, e2]
    simp [octal_value]
  | [a, b], _, hd, _, hnext =>
    have ha := hd a (by simp)
    have hb := hd b (by simp)
    have g1 : (pre ++ (92 :: [a, b] ++ post)).getD (pre.length + 1) 0 = a := by
      rw [getD_append_add]; rfl
    have g2 : (pre ++ (92 :: [a, b] ++ post)).getD (pre.length + 1 + 1) 0 = b := by
      rw [Nat.add_assoc, getD_append_add]; rfl
    have g3 : (pre ++ (92 :: [a, b] ++ post)).getD (pre.length + 1 + 1 + 1) 0
        = post.getD 0 0 := by
      rw [Nat.add_assoc, Nat.add_assoc, getD_append_add]; rfl
    have hn : isodigit (post.getD 0 0) = false := by
      rcases hnext with h | h
      · simp at h
      · exact h
    have e1 := octal_step_digit (pre ++ (92 :: [a, b] ++ post)) 0 (pre.length + 1)
      (by rw [g1]; exact ha)
    have e2 := octal_step_digit (pre ++ (92 :: [a, b] ++ post)) (0 * 8 + (a - 48))
      (pre.length + 1 + 1) (by rw [g2]; exact hb)
    have e3 := octal_step_other (pre ++ (92 :: [a, b] ++ post))
      ((0 * 8 + (a - 48)) * 8 + (b - 48)) (pre.length + 1 + 1 + 1)
      (by rw [g3]; exact hn)
    rw [g1] at e1
    rw [g2] at e2
    rw [parse_c_string_loop_octal_case _ _ _ _ _ g0 (by rw [g1]; omega), e1, e2, e3]
    simp [octal_value]
  | [a, b, c], _, hd, _, _ =>
    have ha := hd a (by simp)
    have hb := hd b (by simp)
    have hc := hd c (by simp)
    have g1 : (pre ++ (92 :: [a, b, c] ++ post)).getD (pre.length + 1) 0 = a := by
      rw [getD_append_add]; rfl
    have g2 : (pre ++ (92 :: [a, b, c] ++ post)).getD (pre.length + 1 + 1) 0 = b := by
      rw [Nat.add_assoc, getD_append_add]; rfl
    have g3 : (pre ++ (92 :: [a, b, c] ++ post)).getD (pre.length + 1 + 1 + 1) 0
        = c := by
      rw [Nat.add_assoc, Nat.add_assoc, getD_append_add]; rfl
    have e1 := octal_step_digit (pre ++ (92 :: [a, b, c] ++ post)) 0 (pre.length + 1)
      (by rw [g1]; exact ha)
    have e2 := octal_step_digit (pre ++ (92 :: [a, b, c] ++ post)) (0 * 8 + (a - 48))
      (pre.length + 1 + 1) (by rw [g2]; exact hb)
    have e3 := octal_step_digit (pre ++ (92 :: [a, b, c] ++ post))
      ((0 * 8 + (a - 48)) * 8 + (b - 48)) (pre.length + 1 + 1 + 1)
      (by rw [g3]; exact hc)
    rw [g1] at e1
    rw [g2] at e2
    rw [g3] at e3
    rw [parse_c_string_loop_octal_case _ _ _ _ _ g0 (by rw [g1]; omega), e1, e2, e3]
    simp [octal_value]
  | _ :: _ :: _ :: _ :: _, _, _, hlen, _ => simp at hlen

theorem hexval_eq_hex_digit_value (c : Nat) (h : isxdigit c = true) :
    hexval c = hex_digit_value c := by
  simp only [isxdigit, Bool.or_eq_true, Bool.and_eq_true, decide_eq_true_eq] at h
  unfold hexval hex_digit_value
  split_ifs <;> omega

theorem hex_step_digit (line : List Nat) (val offset : Nat)
    (h : isxdigit (line.getD offset 0) = true) :
    hex_step line (val, offset)
      = (val * 16 + hex_digit_value (line.getD offset 0), offset + 1) := by
  unfold hex_step
  rw [if_pos h, hexval_eq_hex_digit_value _ h]

theorem hex_step_other (line : List Nat) (val offset : Nat)
    (h : isxdigit (line.getD offset 0) = false) :
    hex_step line (val, offset) = (val, offset) := by
  unfold hex_step
  rw [if_neg (by rw [h]; exact Bool.false_ne_true)]

theorem parse_c_string_loop_hex_case (buf_max : Nat) (line : List Nat)
    (fuel : Nat) (buf : List Nat) (offset : Nat)
    (h92 : line.getD offset 0 = 92) (hx : line.getD (offset + 1) 0 = 120) :
    parse_c_string_loop buf_max line (fuel + 1) buf offset
      = parse_c_string_loop buf_max line fuel
          (append_byte buf buf_max
            (hex_step line (hex_step line (0, offset + 1 + 1))).1)
          (hex_step line (hex_step line (0, offset + 1 + 1))).2 := by
  rw [parse_c_string_loop]
  rw [if_pos ⟨by rw [h92]; decide, by rw [h92]; decide⟩, if_pos h92]
  simp only [hx]
  rw [if_neg (by decide), if_pos trivial]

theorem parse_c_string_loop_hex (buf_max : Nat) (pre h post : List Nat)
    (hh : ∀ c ∈ h, isxdigit c = true) (hlen : h.length ≤ 2)
    (hnext : h.length = 2 ∨ isxdigit (post.getD 0 0) = false)
    (fuel : Nat) (buf : List Nat) :
    parse_c_string_loop buf_max (pre ++ (92 :: 120 :: h ++ post)) (fuel + 1) buf
        pre.length
      = parse_c_string_loop buf_max (pre ++ (92 :: 120 :: h ++ post)) fuel
          (append_byte buf buf_max (hex_value h)) (pre.length + 2 + h.length) := by
  have g0 : (pre ++ (92 :: 120 :: h ++ post)).getD pre.length 0 = 92 := by
    rw [getD_append_length]; rfl
  have g1 : (pre ++ (92 :: 120 :: h ++ post)).getD (pre.length + 1) 0 = 120 := by
    rw [getD_append_add]; rfl
  rw [parse_c_string_loop_hex_case _ _ _ _ _ g0 g1]
  match h, hh, hlen, hnext with
  | [], _, _, hnext =>
    have hn : isxdigit (post.getD 0 0) = false := by
      rcases hnext with h | h
      · simp at h
      · exact h
    have g2 : (pre ++ (92 :: 120 :: [] ++ post)).getD (pre.length + 1 + 1) 0
        = post.getD 0 0 := by
      rw [Nat.add_assoc, getD_append_add]; rfl
    have e1 := hex_step_other (pre ++ (92 :: 120 :: [] ++ post)) 0
      (pre.length + 1 + 1) (by rw [g2]; exact hn)
    rw [e1, e1]
    simp [hex_value]
  | [a], hh, _, hnext =>
    have ha := hh a (by simp)
    have hn : isxdigit (post.getD 0 0) = false := by
      rcases hnext with h | h
      · simp at h
      · exact h
    have g2 : (pre ++ (92 :: 120 :: [a] ++ post)).getD (pre.length + 1 + 1) 0 = a := by
      rw [Nat.add_assoc, getD_append_add]; rfl
    have g3 : (pre ++ (92 :: 120 :: [a] ++ post)).getD (pre.length + 1 + 1 + 1) 0
        = post.getD 0 0 := by
      rw [Nat.add_assoc, Nat.add_assoc, getD_append_add]; rfl
    have e1 := hex_step_digit (pre ++ (92 :: 120 :: [a] ++ post)) 0
      (pre.length + 1 + 1) (by rw [g2]; exact ha)
    have e2 := hex_step_other (pre ++ (92 :: 120 :: [a] ++ post))
      (0 * 16 + hex_digit_value a) (pre.length + 1 + 1 + 1) (by rw [g3]; exact hn)
    rw [g2] at e1
    rw [e1, e2]
    simp [hex_value]
  | [a, b], hh, _, _ =>
    have ha := hh a (by simp)
    have hb := hh b (by simp)
    have g2 : (pre ++ (92 :: 120 :: [a, b] ++ post)).getD (pre.length + 1 + 1) 0
        = a := by
      rw [Nat.add_assoc, getD_append_add]; rfl
    have g3 : (pre ++ (92 :: 120 :: [a, b] ++ post)).getD (pre.length + 1 + 1 + 1) 0
        = b := by
      rw [Nat.add_assoc, Nat.add_assoc, getD_append_add]; rfl
    have e1 := hex_step_digit (pre ++ (92 :: 120 :: [a, b] ++ post)) 0
      (pre.length + 1 + 1) (by rw [g2]; exact ha)
    have e2 := hex_step_digit (pre ++ (92 :: 120 :: [a, b] ++ post))
      (0 * 16 + hex_digit_value a) (pre.length + 1 + 1 + 1) (by rw [g3]; exact hb)
    rw [g2] at e1
    rw [g3] at e2
    rw [e1, e2]
    simp [hex_value]
  | _ :: _ :: _ :: _, _, hlen, _ => simp at hlen

theorem append_byte_of_lt (buf : List Nat) (buf_max c : Nat)
    (h : buf.length < buf_max) : append_byte buf buf_max c = buf ++ [c % 256] := by
  simp [append_byte, h]

theorem parse_c_string_octal_literal (d mid buf : List Nat) (buf_max : Nat)
    (hne : d ≠ []) (hd : ∀ c ∈ d, 48 ≤ c ∧ c ≤ 55) (hlen : d.length ≤ 3)
    (hmid : ∀ c ∈ mid, plain_char c) (hnext : d.length = 3 ∨ mid = []) :
    parse_c_string buf buf_max ([34] ++ (92 :: d ++ (mid ++ [34])))
      = some (append_bytes (append_byte buf buf_max (octal_value d)) buf_max mid,
          d.length + mid.length + 3) := by
  have hnext' : d.length = 3 ∨ isodigit ((mid ++ [34]).getD 0 0) = false := by
    rcases hnext with h | h
    · exact Or.inl h
    · subst h; exact Or.inr (by decide)
  have h1 := parse_c_string_loop_octal buf_max [34] d (mid ++ [34]) hne hd hlen
    hnext' (d.length + mid.length + 3) buf
  have h2 := parse_c_string_loop_plain buf_max ([34] ++ 92 :: d) mid [34] hmid
    (d.length + 3) (append_byte buf buf_max (octal_value d))
  have hq : (([34] ++ 92 :: d) ++ (mid ++ [34])).getD
      (([34] ++ 92 :: d).length + mid.length) 0 = 34 := by
    rw [getD_append_add, getD_append_length]; rfl
  have h3 := parse_c_string_loop_quote buf_max (([34] ++ 92 :: d) ++ (mid ++ [34]))
    (d.length + 2) (append_bytes (append_byte buf buf_max (octal_value d)) buf_max mid)
    _ hq
  have hline : [34] ++ (92 :: d ++ (mid ++ [34]))
      = ([34] ++ 92 :: d) ++ (mid ++ [34]) := by simp
  have hfuel : ([34] ++ (92 :: d ++ (mid ++ [34]))).length + 1
      = d.length + mid.length + 3 + 1 := by
    simp only [List.length_append, List.length_cons, List.length_nil]
    omega
  have h0 : ([34] ++ (92 :: d ++ (mid ++ [34]))).getD 0 0 = 34 := rfl
  unfold parse_c_string
  rw [if_neg (by rw [h0]; decide), hfuel]
  have hone : ([34] : List Nat).length = 1 := rfl
  rw [hone] at h1
  rw [h1, hline]
  have hf2 : d.length + mid.length + 3 = d.length + 3 + mid.length := by omega
  have hpre : ([34] ++ 92 :: d).length = 1 + 1 + d.length := by
    simp only [List.length_append, List.length_cons, List.length_nil]
    omega
  rw [hpre] at h2 h3
  rw [hf2, h2, h3]
  congr 2
  omega

theorem parse_c_string_hex_continues (h post buf : List Nat) (buf_max : Nat)
    (hh : ∀ c ∈ h, isxdigit c = true) (hlen : h.length ≤ 2)
    (hnext : h.length = 2 ∨ isxdigit (post.getD 0 0) = false) :
    parse_c_string buf buf_max ([34] ++ (92 :: 120 :: h ++ post))
      = parse_c_string_loop buf_max ([34] ++ (92 :: 120 :: h ++ post))
          (h.length + post.length + 3)
          (append_byte buf buf_max (hex_value h)) (h.length + 3) := by
  have h1 := parse_c_string_loop_hex buf_max [34] h post hh hlen hnext
    (h.length + post.length + 3) buf
  have hfuel : ([34] ++ (92 :: 120 :: h ++ post)).length + 1
      = h.length + post.length + 3 + 1 := by
    simp only [List.length_append, List.length_cons, List.length_nil]
    omega
  have h0 : ([34] ++ (92 :: 120 :: h ++ post)).getD 0 0 = 34 := rfl
  unfold parse_c_string
  rw [if_neg (by rw [h0]; decide), hfuel]
  have hone : ([34] : List Nat).length = 1 := rfl
  rw [hone] at h1
  rw [h1]
  congr 1
  omega

theorem parse_c_string_hex_literal (h tail buf : List Nat) (buf_max : Nat)
    (hh : ∀ c ∈ h, isxdigit c = true) (hlen : h.length ≤ 2)
    (htail : ∀ c ∈ tail, plain_char c)
    (hnext : h.length = 2 ∨ isxdigit ((tail ++ [34]).getD 0 0) = false) :
    parse_c_string buf buf_max ([34] ++ (92 :: 120 :: h ++ (tail ++ [34])))
      = some (append_bytes (append_byte buf buf_max (hex_value h)) buf_max tail,
          h.length + tail.length + 4) := by
  rw [parse_c_string_hex_continues h (tail ++ [34]) buf buf_max hh hlen hnext]
  have h2 := parse_c_string_loop_plain buf_max ([34] ++ 92 :: 120 :: h) tail [34]
    htail (h.length + 4) (append_byte buf buf_max (hex_value h))
  have hq : (([34] ++ 92 :: 120 :: h) ++ (tail ++ [34])).getD
      (([34] ++ 92 :: 120 :: h).length + tail.length) 0 = 34 := by
    rw [getD_append_add, getD_append_length]; rfl
  have h3 := parse_c_string_loop_quote buf_max
    (([34] ++ 92 :: 120 :: h) ++ (tail ++ [34])) (h.length + 3)
    (append_bytes (append_byte buf buf_max (hex_value h)) buf_max tail) _ hq
  have hline : [34] ++ (92 :: 120 :: h ++ (tail ++ [34]))
      = ([34] ++ 92 :: 120 :: h) ++ (tail ++ [34]) := by simp
  have hpre : ([34] ++ 92 :: 120 :: h).length = h.length + 3 := by
    simp only [List.length_append, List.length_cons, List.length_nil]
    omega
  rw [hpre] at h2 h3
  have hf : h.length + (tail ++ [34]).length + 3 = h.length + 4 + tail.length := by
    simp only [List.length_append, List.length_cons, List.length_nil]
    omega
  rw [hline, hf, h2, h3]
  congr 2
  omega

theorem hex_value_lt (h : List Nat) (hh : ∀ c ∈ h, isxdigit c = true)
    (hlen : h.length ≤ 2) : hex_value h < 256 := by
  have hdig : ∀ c, isxdigit c = true → hex_digit_value c ≤ 15 := by
    intro c hc
    simp only [isxdigit, Bool.or_eq_true, Bool.and_eq_true, decide_eq_true_eq] at hc
    unfold hex_digit_value
    split_ifs <;> omega
  match h, hh, hlen with
  | [], _, _ => simp [hex_value]
  | [a], hh, _ =>
    have := hdig a (hh a (by simp))
    simp only [hex_value, List.foldl_cons, List.foldl_nil]
    omega
  | [a, b], hh, _ =>
    have := hdig a (hh a (by simp))
    have := hdig b (hh b (by simp))
    simp only [hex_value, List.foldl_cons, List.foldl_nil]
    omega
  | _ :: _ :: _ :: _, _, hlen => simp at hlen

/-- C9 (octal escape). For a non-empty sequence `ds` of octal digit
characters, `parse_c_string` on the literal quote, backslash, `ds`, quote
hands one byte to `append_byte` for the escape, the octal number of the
first (at most three) digits, which `append_byte` stores modulo 256, then
decodes the digits after the third as ordinary characters, and returns the
position behind the closing quote. So for one to three digits and a buffer
with room, exactly the one byte `octal_value ds % 256` is appended. -/
theorem octal_escape_one_byte (ds buf : List Nat) (buf_max : Nat)
    (hne : ds ≠ []) (hd : ∀ c ∈ ds, 48 ≤ c ∧ c ≤ 55) :
    parse_c_string buf buf_max (34 :: 92 :: ds ++ [34])
      = some (append_bytes (append_byte buf buf_max (octal_value (ds.take 3)))
          buf_max (ds.drop 3), ds.length + 3) ∧
    (ds.length ≤ 3 → buf.length < buf_max →
      parse_c_string buf buf_max (34 :: 92 :: ds ++ [34])
        = some (buf ++ [octal_value ds % 256], ds.length + 3)) := by
  have hline : 34 :: 92 :: ds ++ [34]
      = [34] ++ (92 :: ds.take 3 ++ (ds.drop 3 ++ [34])) := by
    simp only [List.cons_append, List.nil_append, List.singleton_append,
      ← List.append_assoc, List.take_append_drop]
  have hlen : (ds.take 3).length + (ds.drop 3).length = ds.length := by
    rw [← List.length_append, List.take_append_drop]
  have hmain := parse_c_string_octal_literal (ds.take 3) (ds.drop 3) buf buf_max
    (by
      cases ds with
      | nil => exact absurd rfl hne
      | cons a t => simp)
    (fun c hc => hd c (List.mem_of_mem_take hc))
    (by rw [List.length_take]; omega)
    (fun c hc => by
      have := hd c (List.mem_of_mem_drop hc)
      exact ⟨by omega, by omega, by omega⟩)
    (by
      by_cases h3 : 3 ≤ ds.length
      · exact Or.inl (by rw [List.length_take]; omega)
      · exact Or.inr (List.drop_of_length_le (by omega)))
  rw [hlen] at hmain
  rw [hline]
  refine ⟨hmain, fun h3 hroom => ?_⟩
  rw [hmain, List.take_of_length_le h3, List.drop_of_length_le h3,
    append_byte_of_lt _ _ _ hroom]
  rfl

/-- Witness of C9: the literal `"\1234"` decodes to the byte 0o123 = 83
followed by the character `4`. -/
theorem octal_escape_one_byte_witness :
    parse_c_string [] 1024 (34 :: 92 :: [49, 50, 51, 52] ++ [34])
      = some (append_bytes (append_byte [] 1024 (octal_value ([49, 50, 51, 52].take 3)))
          1024 ([49, 50, 51, 52].drop 3), [49, 50, 51, 52].length + 3) ∧
    ([49, 50, 51, 52].length ≤ 3 → ([] : List Nat).length < 1024 →
      parse_c_string [] 1024 (34 :: 92 :: [49, 50, 51, 52] ++ [34])
        = some ([] ++ [octal_value [49, 50, 51, 52] % 256],
            [49, 50, 51, 52].length + 3)) :=
  octal_escape_one_byte [49, 50, 51, 52] [] 1024 (by decide) (by decide)

/-- C10 (hex escape). Let `h` be zero, one or two hexadecimal digit
characters of either case, followed in the line by `post`, where either `h`
has two digits or the first character of `post` (NUL when `post` is empty) is
not a hexadecimal digit. Then `parse_c_string` on quote, backslash, `x`, `h`,
`post` hands exactly one byte, the hexadecimal number `h` (0 for the empty
`h`, always below 256), to `append_byte` and goes on decoding at the first
character of `post`. When `post` is ordinary characters and the closing
quote, these characters (a third hex digit among them) are appended as they
are. -/
theorem hex_escape_one_byte (h post buf : List Nat) (buf_max : Nat)
    (hh : ∀ c ∈ h, isxdigit c = true) (hlen : h.length ≤ 2)
    (hnext : h.length = 2 ∨ isxdigit (post.getD 0 0) = false) :
    parse_c_string buf buf_max (34 :: 92 :: 120 :: h ++ post)
      = parse_c_string_loop buf_max (34 :: 92 :: 120 :: h ++ post)
          (h.length + post.length + 3)
          (append_byte buf buf_max (hex_value h)) (h.length + 3) ∧
    (∀ tail : List Nat, post = tail ++ [34] → (∀ c ∈ tail, plain_char c) →
      parse_c_string buf buf_max (34 :: 92 :: 120 :: h ++ post)
        = some (append_bytes (append_byte buf buf_max (hex_value h)) buf_max tail,
            h.length + tail.length + 4)) ∧
    hex_value h < 256 ∧
    (buf.length < buf_max →
      append_byte buf buf_max (hex_value h) = buf ++ [hex_value h]) := by
  have hline : 34 :: 92 :: 120 :: h ++ post = [34] ++ (92 :: 120 :: h ++ post) := by
    simp
  have hlt := hex_value_lt h hh hlen
  refine ⟨?_, ?_, hlt, ?_⟩
  · rw [hline]
    exact parse_c_string_hex_continues h post buf buf_max hh hlen hnext
  · intro tail hpost htail
    subst hpost
    rw [hline]
    exact parse_c_string_hex_literal h tail buf buf_max hh hlen htail hnext
  · intro hroom
    rw [append_byte_of_lt _ _ _ hroom, Nat.mod_eq_of_lt hlt]

/-- Witness of C10: in the literal `"\x1f3"` the escape yields the byte 0x1f
and the third hex digit `3` is decoded as an ordinary character. -/
theorem hex_escape_one_byte_witness :
    parse_c_string [] 1024 (34 :: 92 :: 120 :: [49, 102] ++ [51, 34])
      = some ([0x1f, 51], 7) ∧ hex_value [49, 102] = 0x1f :=
  ⟨((hex_escape_one_byte [49, 102] [51, 34] [] 1024 (by decide) (by decide)
      (by decide)).2.1 [51] rfl (by decide)).trans (by decide), by decide⟩

/-! ## Literal escapes and unterminated literals -/

theorem parse_c_string_loop_literal (buf_max : Nat) (line : List Nat)
    (fuel : Nat) (buf : List Nat) (offset c : Nat)
    (h92 : line.getD offset 0 = 92) (hc : line.getD (offset + 1) 0 = c)
    (hdigit : ¬ (48 ≤ c ∧ c ≤ 57)) (hx : c ≠ 120)
    (hletter : c ≠ 97 ∧ c ≠ 98 ∧ c ≠ 102 ∧ c ≠ 110 ∧ c ≠ 114 ∧ c ≠ 116 ∧ c ≠ 118) :
    parse_c_string_loop buf_max line (fuel + 1) buf offset
      = parse_c_string_loop buf_max line fuel (append_byte buf buf_max c)
          (offset + 1 + 1) := by
  rw [parse_c_string_loop]
  rw [if_pos ⟨by rw [h92]; decide, by rw [h92]; decide⟩, if_pos h92]
  simp only [hc]
  rw [if_neg hdigit, if_neg hx, if_neg hletter.1, if_neg hletter.2.1,
    if_neg hletter.2.2.1, if_neg hletter.2.2.2.1, if_neg hletter.2.2.2.2.1,
    if_neg hletter.2.2.2.2.2.1, if_neg hletter.2.2.2.2.2.2]

/-- C11 at a failing input. In the literals `"\8"` and `"\9"` the character
after the backslash is not an octal digit, not `x` and not one of
`a b f n r t v`, yet `parse_c_string` decodes each to two bytes: the byte 0
from the octal block, which `case '8': case '9':` enters with no digit
accepted, and then the digit itself as an ordinary character. -/
theorem backslash_eight_nine_decode_to_two_bytes :
    parse_c_string [] 1500 [34, 92, 56, 34] = some ([0, 56], 4) ∧
    parse_c_string [] 1500 [34, 92, 57, 34] = some ([0, 57], 4) ∧
    isodigit 56 = false ∧ isodigit 57 = false := by
  decide

/-- C13 at a failing input. The line is `"a\` and its terminating NUL at
index 3; the memory behind the NUL holds `b"` in the first case and another
NUL in the second. `parse_c_string` takes the NUL as the character escaped by
the backslash: it appends the byte 0, steps over the NUL and goes on with the
memory behind it, so it returns a position behind the line end (6 and 4). -/
theorem backslash_at_line_end_runs_past_nul :
    strlen [34, 97, 92, 0, 98, 34] = 3 ∧
    parse_c_string [] 1500 [34, 97, 92, 0, 98, 34] = some ([97, 0, 98], 6) ∧
    strlen [34, 97, 92, 0, 0] = 3 ∧
    parse_c_string [] 1500 [34, 97, 92, 0, 0] = some ([97, 0], 4) := by
  decide

/-! ## Frame of `payload_add` and the built-in set -/

/-- C20 at a failing input. The registry holds ports 53, 161 and 5060 and
`payload_add` is called with the port set `{53, 100}`. Port 5060 is not in
the set and has a record before the call; after the call
`payloads_lookup(5060)` reports not-found: replacing port 53 set the local
`count` to 0, and the insertion of port 100 moved the records of 161 and
5060 up by one slot without incrementing `payloads->count`. -/
theorem multi_port_add_drops_other_port :
    ascending ⟨[⟨53, 65536, 1, 0, [1]⟩, ⟨161, 65536, 1, 0, [2]⟩,
      ⟨5060, 65536, 1, 0, [3]⟩]⟩ ∧
    rangelist_ports [{ begin := 53, end_ := 53 }, { begin := 100, end_ := 100 }]
      = [53, 100] ∧
    payloads_lookup
      (some ⟨[⟨53, 65536, 1, 0, [1]⟩, ⟨161, 65536, 1, 0, [2]⟩,
        ⟨5060, 65536, 1, 0, [3]⟩]⟩) 5060 = some ⟨[3], 1, 65536, 0⟩ ∧
    payload_add
      ⟨[⟨53, 65536, 1, 0, [1]⟩, ⟨161, 65536, 1, 0, [2]⟩, ⟨5060, 65536, 1, 0, [3]⟩]⟩
      (fun _ => 7) 1
      [{ begin := 53, end_ := 53 }, { begin := 100, end_ := 100 }] 65536
      = some (⟨[⟨53, 65536, 1, 1792, [7]⟩, ⟨100, 65536, 1, 1792, [7]⟩,
          ⟨161, 65536, 1, 0, [2]⟩]⟩, 0) ∧
    payloads_lookup
      (some ⟨[⟨53, 65536, 1, 1792, [7]⟩, ⟨100, 65536, 1, 1792, [7]⟩,
        ⟨161, 65536, 1, 0, [2]⟩]⟩) 5060 = none := by
  decide

set_option maxRecDepth 100000 in
/-- C17 (bootstrap baseline). `payloads_create` returns a registry of exactly
three records, for the ports 53, 161 and 5060 with the lengths 38, 57 and 328,
the last being `strlen` of the SIP OPTIONS text, each with the source port
65536. `payloads_lookup` succeeds with these lengths for the three ports and
reports not-found for every port value whose low 16 bits are none of them. -/
theorem payloads_create_baseline :
    ∃ r, payloads_create = some r ∧
      r.count = 3 ∧
      r.list.map (fun p => (p.port, p.length, p.source_port, p.buf.length))
        = [(53, 38, 65536, 38), (161, 57, 65536, 57), (5060, 328, 65536, 328)] ∧
      (hard_coded_payloads.map (fun e => (e.port, e.length)))
        = [(161, 57), (53, 38), (5060, 0xFFFFFFFF), (0, 0)] ∧
      strlen (hard_coded_payloads.getD 2 ⟨0, 0, 0, 0, []⟩).buf = 328 ∧
      (payloads_lookup (some r) 53).map (fun x => (x.length, x.source_port))
        = some (38, 65536) ∧
      (payloads_lookup (some r) 161).map (fun x => (x.length, x.source_port))
        = some (57, 65536) ∧
      (payloads_lookup (some r) 5060).map (fun x => (x.length, x.source_port))
        = some (328, 65536) ∧
      ∀ q : Nat, q % 65536 ≠ 53 → q % 65536 ≠ 161 → q % 65536 ≠ 5060 →
        payloads_lookup (some r) q = none := by
  have hports : (payloads_create.getD ⟨[]⟩).list.map (fun p => p.port)
      = [53, 161, 5060] := by rfl
  refine ⟨payloads_create.getD ⟨[]⟩, by rfl, by rfl, by rfl, by rfl, by rfl, by rfl,
    by rfl, by rfl, ?_⟩
  intro q h1 h2 h3
  have hnone : ¬ (payloads_lookup (some (payloads_create.getD ⟨[]⟩)) q).isSome := by
    simp only [payloads_lookup, and_0xFFFF, payloads_lookup_loop_isSome]
    rintro ⟨p, hp, hq⟩
    have : p.port ∈ (payloads_create.getD ⟨[]⟩).list.map (fun p => p.port) :=
      List.mem_map.2 ⟨p, hp, rfl⟩
    rw [hports, hq] at this
    simp only [List.mem_cons, List.mem_singleton, List.mem_nil_iff, or_false] at this
    omega
  cases hl : payloads_lookup (some (payloads_create.getD ⟨[]⟩)) q with
  | none => rfl
  | some x => rw [hl] at hnone; exact absurd rfl hnone

/-! ## Bounded accumulation -/

theorem append_byte_take (N M : Nat) (hNM : N ≤ M) (b : List Nat) (c : Nat) :
    append_byte (b.take N) N c = (append_byte b M c).take N := by
  unfold append_byte
  by_cases h1 : b.length < N
  · have h2 : b.length < M := by omega
    rw [if_pos (by rw [List.length_take]; omega), if_pos h2,
      List.take_of_length_le (by omega),
      List.take_of_length_le (by rw [List.length_append]; simp; omega)]
  · rw [if_neg (by rw [List.length_take]; omega)]
    split_ifs
    · rw [List.take_append_of_le_length (by omega)]
    · rfl

theorem append_byte_stored (N : Nat) (p : List Nat) (hp : p.length ≤ N)
    (b : List Nat) (c : Nat) :
    append_byte (p ++ b) N c = p ++ append_byte b (N - p.length) c := by
  unfold append_byte
  by_cases h1 : b.length < N - p.length
  · rw [if_pos (by rw [List.length_append]; omega), if_pos h1, List.append_assoc]
  · rw [if_neg (by rw [List.length_append]; omega), if_neg h1]

theorem append_byte_length_le (b : List Nat) (M c : Nat) :
    (append_byte b M c).length ≤ b.length + 1 := by
  unfold append_byte
  split_ifs
  · simp
  · omega

theorem parse_c_string_loop_sim (g : List Nat → List Nat) (N M : Nat)
    (hg : ∀ b c, append_byte (g b) N c = g (append_byte b M c))
    (line : List Nat) (fuel : Nat) (b : List Nat) (offset : Nat) :
    parse_c_string_loop N line fuel (g b) offset
      = (parse_c_string_loop M line fuel b offset).map (fun r => (g r.1, r.2)) := by
  induction fuel generalizing b offset with
  | zero => rfl
  | succ fuel ih =>
    rw [parse_c_string_loop, parse_c_string_loop]
    by_cases hc : line.getD offset 0 ≠ 0 ∧ line.getD offset 0 ≠ 34
    · rw [if_pos hc, if_pos hc]
      by_cases h92 : line.getD offset 0 = 92
      · rw [if_pos h92, if_pos h92]
        dsimp only
        by_cases hdig : 48 ≤ line.getD (offset + 1) 0 ∧ line.getD (offset + 1) 0 ≤ 57
        · rw [if_pos hdig, if_pos hdig, hg, ih]
        · rw [if_neg hdig, if_neg hdig]
          by_cases hx : line.getD (offset + 1) 0 = 120
          · rw [if_pos hx, if_pos hx, hg, ih]
          · rw [if_neg hx, if_neg hx, hg, ih]
      · rw [if_neg h92, if_neg h92, hg, ih]
    · rw [if_neg hc, if_neg hc]
      rfl

theorem parse_c_string_sim (g : List Nat → List Nat) (N M : Nat)
    (hg : ∀ b c, append_byte (g b) N c = g (append_byte b M c))
    (line b : List Nat) :
    parse_c_string (g b) N line
      = (parse_c_string b M line).map (fun r => (g r.1, r.2)) := by
  unfold parse_c_string
  split_ifs
  · rfl
  · exact parse_c_string_loop_sim g N M hg line _ b 1

theorem parse_c_string_loop_length (M : Nat) (line : List Nat) (fuel : Nat)
    (b : List Nat) (offset : Nat) (r : List Nat × Nat)
    (h : parse_c_string_loop M line fuel b offset = some r) :
    r.1.length ≤ b.length + (line.length - offset) := by
  induction fuel generalizing b offset with
  | zero => simp [parse_c_string_loop] at h
  | succ fuel ih =>
    rw [parse_c_string_loop] at h
    by_cases hc : line.getD offset 0 ≠ 0 ∧ line.getD offset 0 ≠ 34
    · have hlt : offset < line.length := by
        by_contra hge
        apply hc.1
        rw [List.getD_eq_getElem?_getD, List.getElem?_eq_none (by omega)]
        rfl
      rw [if_pos hc] at h
      by_cases h92 : line.getD offset 0 = 92
      · rw [if_pos h92] at h
        dsimp only at h
        by_cases hdig : 48 ≤ line.getD (offset + 1) 0 ∧ line.getD (offset + 1) 0 ≤ 57
        · rw [if_pos hdig] at h
          have o1 := octal_step_offset line (0, offset + 1)
          have o2 := octal_step_offset line (octal_step line (0, offset + 1))
          have o3 := octal_step_offset line
            (octal_step line (octal_step line (0, offset + 1)))
          have := ih _ _ h
          have := append_byte_length_le b M
            (octal_step line (octal_step line (octal_step line (0, offset + 1)))).1
          simp only at o1
          omega
        · rw [if_neg hdig] at h
          by_cases hx : line.getD (offset + 1) 0 = 120
          · rw [if_pos hx] at h
            have x1 := hex_step_offset line (0, offset + 1 + 1)
            have x2 := hex_step_offset line (hex_step line (0, offset + 1 + 1))
            have := ih _ _ h
            have := append_byte_length_le b M
              (hex_step line (hex_step line (0, offset + 1 + 1))).1
            simp only at x1
            omega
          · rw [if_neg hx] at h
            have := ih _ _ h
            generalize (if line.getD (offset + 1) 0 = 97 then 7
              else if line.getD (offset + 1) 0 = 98 then 8
              else if line.getD (offset + 1) 0 = 102 then 12
              else if line.getD (offset + 1) 0 = 110 then 10
              else if line.getD (offset + 1) 0 = 114 then 13
              else if line.getD (offset + 1) 0 = 116 then 9
              else if line.getD (offset + 1) 0 = 118 then 11
              else line.getD (offset + 1) 0) = c at this
            have := append_byte_length_le b M c
            omega
      · rw [if_neg h92] at h
        have := ih _ _ h
        have := append_byte_length_le b M (line.getD offset 0)
        omega
    · rw [if_neg hc] at h
      simp only [Option.some.injEq] at h
      rw [← h]
      exact Nat.le_add_right _ _

theorem parse_c_string_length (M : Nat) (line b : List Nat) (r : List Nat × Nat)
    (h : parse_c_string b M line = some r) :
    r.1.length ≤ b.length + line.length := by
  unfold parse_c_string at h
  split_ifs at h
  · simp only [Option.some.injEq] at h
    rw [← h]
    exact Nat.le_add_right _ _
  · have := parse_c_string_loop_length M line _ b 1 r h
    omega

/-- C12 (bounded accumulation). For a capacity `N`, a buffer `buf` that holds
at most `N` bytes and any line, let `out` be what the line decodes to on an
empty buffer whose capacity is never reached (every capacity from the length
of the line on gives the same `out`, which is no longer than the line). Then
`parse_c_string buf N line` leaves the first `N` bytes of `buf ++ out` and
returns the same position as the run without limit: the bytes of `buf` stay
as they are, the length does not exceed `N`, and what does not fit is
dropped. -/
theorem bounded_accumulation (N : Nat) (buf line : List Nat)
    (hk : buf.length ≤ N) :
    ∃ out off,
      (∀ M, line.length ≤ M → parse_c_string [] M line = some (out, off)) ∧
      out.length ≤ line.length ∧
      parse_c_string buf N line = some ((buf ++ out).take N, off) ∧
      ((buf ++ out).take N).take buf.length = buf ∧
      ((buf ++ out).take N).length ≤ N := by
  obtain ⟨⟨out, off⟩, hout⟩ := parse_c_string_returns [] line.length line
  have hlen : out.length ≤ line.length := by
    have := parse_c_string_length line.length line [] (out, off) hout
    simpa using this
  have hall : ∀ M, line.length ≤ M → parse_c_string [] M line = some (out, off) := by
    intro M hM
    obtain ⟨⟨oM, offM⟩, hoM⟩ := parse_c_string_returns [] M line
    have hs := parse_c_string_sim (fun b => b.take line.length) line.length M
      (append_byte_take line.length M hM) line []
    rw [hoM] at hs
    simp only [List.take_nil, hout, Option.map_some', Option.some.injEq,
      Prod.mk.injEq] at hs
    have hl := parse_c_string_length M line [] (oM, offM) hoM
    simp only [List.length_nil, Nat.zero_add] at hl
    rw [List.take_of_length_le hl] at hs
    rw [hoM, hs.1, hs.2]
  have hsmall : parse_c_string [] (N - buf.length) line
      = some (out.take (N - buf.length), off) := by
    have hs := parse_c_string_sim (fun b => b.take (N - buf.length))
      (N - buf.length) (max (N - buf.length) line.length)
      (append_byte_take _ _ (Nat.le_max_left _ _)) line []
    rw [hall _ (Nat.le_max_right _ _)] at hs
    simpa using hs
  have hrun : parse_c_string buf N line
      = some (buf ++ out.take (N - buf.length), off) := by
    have hs := parse_c_string_sim (fun b => buf ++ b) N (N - buf.length)
      (append_byte_stored N buf hk) line []
    rw [hsmall] at hs
    simpa using hs
  have htake : (buf ++ out).take N = buf ++ out.take (N - buf.length) := by
    rw [List.take_append_eq_append_take, List.take_of_length_le hk]
  refine ⟨out, off, hall, hlen, ?_, ?_, ?_⟩
  · rw [hrun, htake]
  · rw [htake, List.take_left']
    rfl
  · rw [List.length_take]
    exact Nat.min_le_left _ _

/-- Witness of C12: capacity 2, one byte already stored, the line `"abc"`. -/
theorem bounded_accumulation_witness :
    ∃ out off,
      (∀ M, [34, 97, 98, 99, 34].length ≤ M →
        parse_c_string [] M [34, 97, 98, 99, 34] = some (out, off)) ∧
      out.length ≤ [34, 97, 98, 99, 34].length ∧
      parse_c_string [1] 2 [34, 97, 98, 99, 34] = some (([1] ++ out).take 2, off) ∧
      (([1] ++ out).take 2).take [1].length = [1] ∧
      (([1] ++ out).take 2).length ≤ 2 :=
  bounded_accumulation 2 [1] [34, 97, 98, 99, 34] (by decide)

/-! ## The closed form of `partial_checksum` -/

theorem fold16_eq (x : Nat) : fold16 x = x % 65536 + x / 65536 := by
  unfold fold16
  rw [and_0xFFFF, Nat.shiftRight_eq_div_pow]

theorem shift_or_eq (a b : Nat) (hb : b < 256) : (a <<< 8) ||| b = a * 256 + b := by
  rw [Nat.shiftLeft_eq, Nat.mul_comm]
  exact (Nat.mul_add_lt_is_or (i := 8) hb a).symm

theorem word_sum_le (px : Nat → Nat) (hpx : ∀ i, px i < 256) (m : Nat) :
    word_sum px m ≤ 65535 * m := by
  induction m with
  | zero => simp [word_sum]
  | succ m ih =>
    have h1 := hpx (2 * m)
    have h2 := hpx (2 * m + 1)
    simp only [word_sum]
    omega

theorem word_sum_mono (px : Nat → Nat) (m : Nat) :
    word_sum px m ≤ word_sum px (m + 1) := by
  simp only [word_sum]
  omega

theorem partial_checksum_loop_eq (px : Nat → Nat) (hpx : ∀ i, px i < 256)
    (icmp_length : Nat) (hlen : icmp_length ≤ 4294967294) (fuel j : Nat)
    (hj : 2 * j ≤ icmp_length + 1) (hfuel : icmp_length ≤ 2 * j + 2 * fuel) :
    partial_checksum_loop px icmp_length fuel (2 * j) (word_sum px j)
      = some (2 * ((icmp_length + 1) / 2), word_sum px ((icmp_length + 1) / 2)) := by
  induction fuel generalizing j with
  | zero =>
    have hnot : ¬ 2 * j < icmp_length := by omega
    have hjm : j = (icmp_length + 1) / 2 := by omega
    rw [partial_checksum_loop, if_neg hnot, ← hjm]
  | succ fuel ih =>
    rw [partial_checksum_loop]
    by_cases h : 2 * j < icmp_length
    · rw [if_pos h]
      have h2 : (2 * j + 2) % 4294967296 = 2 * (j + 1) := by omega
      have h3 : (2 * j + 1) % 4294967296 = 2 * j + 1 := by omega
      have hb := word_sum_le px hpx (j + 1)
      have hstep : (word_sum px j + ((px (2 * j) <<< 8) ||| px (2 * j + 1)))
          % 18446744073709551616 = word_sum px (j + 1) := by
        rw [shift_or_eq _ _ (hpx _)]
        simp only [word_sum] at hb ⊢
        omega
      rw [h2, h3, hstep]
      exact ih (j + 1) (by omega) (by omega)
    · rw [if_neg h]
      have hjm : j = (icmp_length + 1) / 2 := by omega
      rw [← hjm]

/-- The sum that `partial_checksum` folds: the words of the even part and,
for an odd length, the last byte times 256. -/
theorem partial_checksum_eq (px : Nat → Nat) (hpx : ∀ i, px i < 256)
    (icmp_length : Nat) (hpos : 1 ≤ icmp_length) (hlen : icmp_length ≤ 4294967294) :
    partial_checksum px icmp_length
      = some (fold16 (fold16 (fold16
          (word_sum px (icmp_length / 2)
            + (icmp_length % 2) * (px (icmp_length - 1) * 256))))
          % 4294967296) := by
  have hloop := partial_checksum_loop_eq px hpx icmp_length hlen icmp_length 0
    (by omega) (by omega)
  simp only [Nat.mul_zero, word_sum] at hloop
  unfold partial_checksum
  rw [hloop]
  simp only
  rw [if_neg (partial_checksum_index icmp_length hpos hlen)]
  simp only [Nat.and_one_is_mod]
  have hb := word_sum_le px hpx ((icmp_length + 1) / 2)
  rcases Nat.mod_two_eq_zero_or_one icmp_length with h0 | h1
  · have hm : (icmp_length + 1) / 2 = icmp_length / 2 := by omega
    rw [hm] at hb
    rw [h0, hm]
    simp only [Nat.zero_mul, Nat.zero_mod, Nat.sub_zero, Nat.add_zero]
    have : (word_sum px (icmp_length / 2) + 18446744073709551616)
        % 18446744073709551616 = word_sum px (icmp_length / 2) := by omega
    rw [this]
  · have hm : (icmp_length + 1) / 2 = icmp_length / 2 + 1 := by omega
    have hi : (2 * (icmp_length / 2 + 1) + 4294967296 - 1) % 4294967296
        = icmp_length := by omega
    have hl : 2 * (icmp_length / 2) = icmp_length - 1 := by omega
    have hl2 : icmp_length - 1 + 1 = icmp_length := by omega
    rw [hm] at hb
    rw [h1, hm, hi]
    simp only [word_sum, Nat.one_mul] at hb ⊢
    rw [hl, hl2] at hb ⊢
    have hx := hpx icmp_length
    have : (word_sum px (icmp_length / 2)
        + (px (icmp_length - 1) * 256 + px icmp_length) + 18446744073709551616
        - px icmp_length % 18446744073709551616) % 18446744073709551616
        = word_sum px (icmp_length / 2) + px (icmp_length - 1) * 256 := by omega
    rw [this]

theorem checksum_sum_le (px : Nat → Nat) (hpx : ∀ i, px i < 256) (len : Nat) :
    checksum_sum px len ≤ 65535 * ((len + 1) / 2) := by
  have h1 := word_sum_le px hpx (len / 2)
  have h2 := hpx (len - 1)
  unfold checksum_sum
  rcases Nat.mod_two_eq_zero_or_one len with h | h
  · rw [h]; omega
  · rw [h]; omega

theorem fold16_three_lt (s : Nat) (hs : s ≤ 65535 * 2147483648) :
    fold16 (fold16 (fold16 s)) < 4294967296 := by
  simp only [fold16_eq]
  omega

theorem fold16_mod (x : Nat) : fold16 x % 65535 = x % 65535 := by
  rw [fold16_eq]; omega

theorem fold16_eq_zero (x : Nat) : fold16 x = 0 ↔ x = 0 := by
  rw [fold16_eq]; omega

theorem fold16_of_lt (x : Nat) (h : x < 65536) : fold16 x = x := by
  rw [fold16_eq]; omega

theorem fold16_le_first (x : Nat) (h : x ≤ 2147450880) : fold16 x ≤ 98302 := by
  rw [fold16_eq]; omega

theorem fold16_le_second (x : Nat) (h : x ≤ 98302) : fold16 x ≤ 65535 := by
  rw [fold16_eq]; omega

theorem carry_fold_of_lt (x : Nat) (h : x < 65536) : carry_fold x = x := by
  rw [carry_fold, dif_pos h]

theorem carry_fold_step (x : Nat) (h : ¬ x < 65536) :
    carry_fold x = carry_fold (fold16 x) := by
  rw [carry_fold, dif_neg h, fold16_eq]

theorem fold16_three_small (s : Nat) (hs : s ≤ 2147450880) :
    fold16 (fold16 (fold16 s)) = carry_fold s ∧
    fold16 (fold16 (fold16 s)) ≤ 65535 ∧
    fold16 (fold16 (fold16 s)) % 65535 = s % 65535 ∧
    (fold16 (fold16 (fold16 s)) = 0 ↔ s = 0) := by
  have b1 := fold16_le_first s hs
  have b2 := fold16_le_second _ b1
  have h3 : fold16 (fold16 (fold16 s)) = fold16 (fold16 s) :=
    fold16_of_lt _ (by omega)
  refine ⟨?_, by rw [h3]; exact b2, ?_, ?_⟩
  · rw [h3]
    by_cases h1 : s < 65536
    · rw [carry_fold_of_lt s h1, fold16_of_lt s h1, fold16_of_lt s h1]
    · rw [carry_fold_step s h1]
      by_cases h2 : fold16 s < 65536
      · rw [carry_fold_of_lt _ h2, fold16_of_lt _ h2]
      · rw [carry_fold_step _ h2, carry_fold_of_lt _ (by omega)]
  · rw [fold16_mod, fold16_mod, fold16_mod]
  · rw [fold16_eq_zero, fold16_eq_zero, fold16_eq_zero]

theorem partial_checksum_small (px : Nat → Nat) (hpx : ∀ i, px i < 256)
    (len : Nat) (hpos : 1 ≤ len) (hlen : len ≤ 65536) :
    partial_checksum px len = some (fold16 (fold16 (fold16 (checksum_sum px len)))) ∧
    checksum_sum px len ≤ 2147450880 := by
  have hs := checksum_sum_le px hpx len
  have hs2 : checksum_sum px len ≤ 2147450880 := by omega
  refine ⟨?_, hs2⟩
  rw [partial_checksum_eq px hpx len hpos (by omega)]
  have := fold16_three_lt (checksum_sum px len) (by omega)
  unfold checksum_sum at this ⊢
  rw [Nat.mod_eq_of_lt this]

theorem word_sum_eq_zero_iff (px : Nat → Nat) (m : Nat) :
    word_sum px m = 0 ↔ ∀ i, i < 2 * m → px i = 0 := by
  induction m with
  | zero => simp [word_sum]
  | succ m ih =>
    simp only [word_sum]
    constructor
    · intro h i hi
      have h1 : word_sum px m = 0 := by omega
      by_cases hlt : i < 2 * m
      · exact ih.1 h1 i hlt
      · have : i = 2 * m ∨ i = 2 * m + 1 := by omega
        rcases this with e | e <;> rw [e] <;> omega
    · intro h
      have h1 := ih.2 (fun i hi => h i (by omega))
      have h2 := h (2 * m) (by omega)
      have h3 := h (2 * m + 1) (by omega)
      omega

/-! ## The checksum claims -/

/-- C14 read as written fails: for the one-byte buffer `[0x12]` (followed by
a zero byte in memory) `partial_checksum` returns 0x1200, while the folded
value of (sum of the words of the empty prefix) + 0x12 is 0x12. -/
theorem odd_byte_is_not_low_order :
    partial_checksum (fun i => [0x12].getD i 0) 1 = some 0x1200 ∧
    fold16 (fold16 (fold16
      (word_sum (fun i => [0x12].getD i 0) 0 + (fun i => [0x12].getD i 0) 0)))
      = 0x12 := by
  decide

/-- C14 as amended. For a buffer of odd length `2m + 1` in a memory of bytes,
made of the even-length prefix `px[0 .. 2m)` and the final byte `px[2m]`,
`partial_checksum` returns the three-fold carry fold of (sum of the
big-endian words of the prefix) + 256 * (final byte): the unpaired byte is the
high-order byte of a last word whose low byte is zero. -/
theorem odd_length_checksum (px : Nat → Nat) (m : Nat)
    (hpx : ∀ i, px i < 256) (hlen : 2 * m + 1 ≤ 4294967294) :
    partial_checksum px (2 * m + 1)
      = some (fold16 (fold16 (fold16 (word_sum px m + 256 * px (2 * m))))) := by
  have hw := word_sum_le px hpx m
  have hx := hpx (2 * m)
  have hdiv : (2 * m + 1) / 2 = m := by omega
  have hmod : (2 * m + 1) % 2 = 1 := by omega
  rw [partial_checksum_eq px hpx _ (Nat.le_add_left 1 _) hlen, hdiv, hmod,
    Nat.add_sub_cancel, Nat.one_mul, Nat.mul_comm (px (2 * m)) 256]
  rw [Nat.mod_eq_of_lt (fold16_three_lt _ (by omega))]

/-- Witness of C14 as amended: three bytes of the memory `i ↦ i mod 256`. -/
theorem odd_length_checksum_witness :
    partial_checksum (fun i => i % 256) (2 * 1 + 1)
      = some (fold16 (fold16 (fold16
          (word_sum (fun i => i % 256) 1 + 256 * ((fun i => i % 256) (2 * 1)))))) :=
  odd_length_checksum (fun i => i % 256) 1 (fun i => Nat.mod_lt i (by decide))
    (by decide)

/-- Even-length checksum of a buffer that is not empty. For a buffer of even
length `2m` with `2 ≤ 2m ≤ 65536` in a memory of bytes, `partial_checksum`
returns the sum of the `m` big-endian words reduced by `carry_fold`, that is
by replacing `s` with `(s mod 65536) + (s div 65536)` until `s < 65536`. The
result is 0 when all bytes of the buffer are zero, and only then. -/
theorem even_length_checksum (px : Nat → Nat) (m : Nat)
    (hpx : ∀ i, px i < 256) (hpos : 1 ≤ m) (hlen : 2 * m ≤ 65536) :
    partial_checksum px (2 * m) = some (carry_fold (word_sum px m)) ∧
    ((∀ i, i < 2 * m → px i = 0) → partial_checksum px (2 * m) = some 0) ∧
    (partial_checksum px (2 * m) = some 0 → ∀ i, i < 2 * m → px i = 0) := by
  have hdiv : 2 * m / 2 = m := by omega
  have hmod : 2 * m % 2 = 0 := by omega
  have hsum : checksum_sum px (2 * m) = word_sum px m := by
    unfold checksum_sum
    rw [hdiv, hmod, Nat.zero_mul, Nat.add_zero]
  obtain ⟨hpc, hle⟩ := partial_checksum_small px hpx (2 * m) (by omega) hlen
  rw [hsum] at hpc hle
  obtain ⟨hcf, -, -, hzero⟩ := fold16_three_small (word_sum px m) hle
  rw [hpc]
  refine ⟨by rw [hcf], ?_, ?_⟩
  · intro hall
    rw [hzero.2 ((word_sum_eq_zero_iff px m).2 hall)]
  · intro h
    exact (word_sum_eq_zero_iff px m).1 (hzero.1 (Option.some.inj h))

/-- An instance of `even_length_checksum`: four bytes of the memory
`i ↦ i mod 256`. -/
theorem even_length_checksum_witness :
    partial_checksum (fun i => i % 256) (2 * 2)
      = some (carry_fold (word_sum (fun i => i % 256) 2)) ∧
    ((∀ i, i < 2 * 2 → (fun i => i % 256) i = 0) →
      partial_checksum (fun i => i % 256) (2 * 2) = some 0) ∧
    (partial_checksum (fun i => i % 256) (2 * 2) = some 0 →
      ∀ i, i < 2 * 2 → (fun i => i % 256) i = 0) :=
  even_length_checksum (fun i => i % 256) 2 (fun i => Nat.mod_lt i (by decide))
    (by decide) (by decide)

/-- C15 at a failing input: the empty buffer, which the claim includes. Its
word sum is 0 and reduces to 0, but `partial_checksum` does not return: with
the loop not entered `i` is 0, line 108 loads `px[0xFFFFFFFF]`, 4 GiB behind
the pointer, and faults. This holds whatever the memory holds. -/
theorem empty_buffer_checksum_faults (px : Nat → Nat) :
    partial_checksum px 0 = none ∧ carry_fold (word_sum px 0) = 0 := by
  refine ⟨partial_checksum_zero px, ?_⟩
  rw [word_sum, carry_fold_of_lt 0 (by decide)]

/-- C19 (malformed-file isolation). Let the loop of `payloads_read_file` be
at a record start with the registry `payloads`, and let `get_next_line`
deliver there a (trimmed, non-blank, non-comment) line that does not begin
with `udp`. Then the function stops with the message "expected udp" for that
line number and the registry at its end is `payloads`, the registry after the
records parsed before. In particular, when this happens at the first record
start of the file, the registry handed to `payloads_read_file` comes back
unchanged. This holds for every `rangelist_parse_ports` and `strtoul`. -/
theorem malformed_record_start_stops
    (rangelist_parse_ports : List Nat → RangeList × Nat) (strtoul : List Nat → Nat)
    (fuel : Nat) (rd rd' : Reader) (payloads : NmapPayloads)
    (hnext : get_next_line rd = (true, rd'))
    (hudp : ¬ (rd'.line.getD 0 0 = 117 ∧ rd'.line.getD 1 0 = 100 ∧
      rd'.line.getD 2 0 = 112)) :
    payloads_read_file_loop rangelist_parse_ports strtoul (fuel + 1) rd payloads
      = some (payloads, some (Diagnostic.expected_udp rd'.line_number)) ∧
    (∀ (fp : List (List Nat)) (stack : List Nat), rd = ⟨fp, 0, 0 :: stack.drop 1⟩ →
      payloads_read_file rangelist_parse_ports strtoul (fuel + 1) fp stack payloads
        = some (payloads, some (Diagnostic.expected_udp rd'.line_number))) := by
  have hloop : payloads_read_file_loop rangelist_parse_ports strtoul (fuel + 1) rd
      payloads = some (payloads, some (Diagnostic.expected_udp rd'.line_number)) := by
    rw [payloads_read_file_loop, hnext]
    simp only
    rw [if_pos hudp]
  refine ⟨hloop, ?_⟩
  intro fp stack hrd
  unfold payloads_read_file
  rw [← hrd]
  exact hloop

/-- Witness of C19: a file whose first line after a comment is `upd 53`,
read into a registry that holds port 53. -/
theorem malformed_record_start_stops_witness :
    payloads_read_file_loop (fun _ => ([], 0)) (fun _ => 0) (0 + 1)
        ⟨[ascii "# nmap\n", ascii "upd 53\n"], 0, 0 :: ([] : List Nat).drop 1⟩
        ⟨[⟨53, 65536, 1, 0, [0]⟩]⟩
      = some (⟨[⟨53, 65536, 1, 0, [0]⟩]⟩, some (Diagnostic.expected_udp 2)) ∧
    (∀ (fp : List (List Nat)) (stack : List Nat),
      (⟨[ascii "# nmap\n", ascii "upd 53\n"], 0, 0 :: ([] : List Nat).drop 1⟩ : Reader)
        = ⟨fp, 0, 0 :: stack.drop 1⟩ →
      payloads_read_file (fun _ => ([], 0)) (fun _ => 0) (0 + 1) fp stack
          ⟨[⟨53, 65536, 1, 0, [0]⟩]⟩
        = some (⟨[⟨53, 65536, 1, 0, [0]⟩]⟩, some (Diagnostic.expected_udp 2))) :=
  malformed_record_start_stops (fun _ => ([], 0)) (fun _ => 0) 0
    ⟨[ascii "# nmap\n", ascii "upd 53\n"], 0, 0 :: ([] : List Nat).drop 1⟩
    ⟨[], 2, [117, 112, 100, 32, 53, 51, 0, 0]⟩
    ⟨[⟨53, 65536, 1, 0, [0]⟩]⟩ (by decide) (by decide)

/-! ## Trim as a filter -/

/-- C21 (trim as a filter). For every registry and every range list `S`, the
records after `payloads_trim(S)` are the records `r` of the original list
for which `rangelist_is_contains(S, r.port + 65536)` holds, the sum taken as
the C code takes it, in 32-bit unsigned arithmetic; they keep their order and
all their fields, being the same records. For ports below `2^32 - 65536`, so
for every 16-bit port, the sum does not wrap. Hence the result is a
subsequence of the original list, the count never increases, and trimming
twice with the same `S` equals trimming once. -/
theorem payloads_trim_is_filter (payloads : NmapPayloads) (S : RangeList) :
    (payloads_trim payloads S).list
      = payloads.list.filter
          (fun r => rangelist_is_contains S ((r.port + 65536) % 4294967296)) ∧
    ((∀ r ∈ payloads.list, r.port < 4294901760) →
      (payloads_trim payloads S).list
        = payloads.list.filter (fun r => rangelist_is_contains S (r.port + 65536))) ∧
    List.Sublist (payloads_trim payloads S).list payloads.list ∧
    (payloads_trim payloads S).count ≤ payloads.count ∧
    payloads_trim (payloads_trim payloads S) S = payloads_trim payloads S := by
  have hlist : (payloads_trim payloads S).list
      = payloads.list.filter (trim_keeps S) := by
    rw [payloads_trim_eq_filter]
  refine ⟨hlist, ?_, ?_, ?_, ?_⟩
  · intro hsmall
    rw [hlist]
    apply List.filter_congr
    intro r hr
    have := hsmall r hr
    simp only [trim_keeps]
    rw [Nat.mod_eq_of_lt (by omega)]
  · rw [hlist]
    exact List.filter_sublist _
  · simp only [NmapPayloads.count, hlist]
    exact List.length_filter_le _ _
  · rw [payloads_trim_eq_filter, payloads_trim_eq_filter, List.filter_filter]
    simp only [Bool.and_self]

end TemplPayloads
